import Mathlib

/-!
# gotailf: the Tailer read/watch loop and its continuation wrapper

A shallow embedding of `internal/file.go`, `internal/watcher.go`, `tailf.go` and
`continue.go`.

Conventions of the embedding.

* A Go `string` is a list of bytes; `len` is `List.length`.
* A Go `error` is `Option Error`, `nil` being `none`.
* `int64` offsets are `Int`.  Every offset handled here is a position inside an open file, which
  the operating system keeps below `2^63`, so no wrap-around is modelled.
* The environment (what the file holds when a read pass starts, what `os.Stat` returns at a
  tick, which events the Tailer receives, whether the context is cancelled) is an explicit
  script passed to the loops.
* A channel is the list of the values sent on it, in order.
-/

namespace Gotailf

/-! ## Bytes and errors -/

abbrev Byte := UInt8

/-- The line feed byte. -/
def LF : Byte := 10

/-- The carriage return byte. -/
def CR : Byte := 13

/-- The bytes of an ASCII string literal. -/
def bytes (s : String) : List Byte := s.toList.map (fun c => c.toNat.toUInt8)

/-- The error values that reach a Tailer. `other` stands for any error of the operating system. -/
inductive Error where
  | EOF
  | Canceled
  | DeadlineExceeded
  | ErrFileGone
  | ErrFileTruncated
  | other (msg : String)
  deriving DecidableEq

/-- How a loop of the embedding can fail to return: the embedding ran out of steps, or the
program panicked. -/
inductive Abort where
  | fuel
  | panic (msg : String)
  deriving DecidableEq

/-! ## internal/file.go -/

/-- The Go library function `strings.TrimRight` for a cutset of ASCII bytes: the longest suffix
made of bytes of the cutset is removed. -/
def TrimRight (s : List Byte) (cutset : List Byte) : List Byte :=
  s.rdropWhile (fun b => cutset.contains b)

/-- Source: `func DropCRLF(buf string) string { return strings.TrimRight(buf, "\r\n") }`. -/
def DropCRLF (buf : List Byte) : List Byte := TrimRight buf [CR, LF]

/-- An open file (`internal.File`): its bytes, the read cursor, and the errors its operations
are scripted to report (`none`: the operation succeeds; for `readErr`, the read at the end of
the content reports `io.EOF`). -/
structure File where
  name : String
  content : List Byte
  offset : Nat
  statErr : Option Error
  seekErr : Option Error
  readErr : Option Error
  deriving DecidableEq

/-- The bytes between the read cursor and the end of the file. -/
def File.unread (f : File) : List Byte := f.content.drop f.offset

/-- The library call `f.Stat()`: name and size. -/
def File.Stat (f : File) : Except Error (String × Int) :=
  match f.statErr with
  | some e => .error e
  | none => .ok (f.name, (f.content.length : Int))

/-- The library call `f.Seek(pos, 0)`: the cursor moves to the absolute position `pos`, which is
returned. A negative position is refused by the operating system. -/
def File.Seek (f : File) (pos : Int) : Except Error (File × Int) :=
  match f.seekErr with
  | some e => .error e
  | none =>
    if pos < 0 then .error (Error.other "invalid argument")
    else .ok ({ f with offset := pos.toNat }, pos)

/-- Scan for the delimiter: the bytes up to and including the first delimiter and `true`, or all
the bytes and `false` when there is none. -/
def readUntil (delim : Byte) : List Byte → List Byte × Bool
  | [] => ([], false)
  | b :: bs =>
    if b = delim then ([b], true)
    else ((b :: (readUntil delim bs).1), (readUntil delim bs).2)

/-- The library call `r.ReadString(delim)` of a `bufio.Reader` over the file: the bytes through
the first delimiter with a nil error, or the bytes left with the error of the underlying read
(`io.EOF` unless the file is scripted to fail). The cursor moves past the returned bytes. -/
def ReadString (f : File) (delim : Byte) : List Byte × Option Error × File :=
  let x := readUntil delim f.unread
  let f1 := { f with offset := f.offset + x.1.length }
  if x.2 then (x.1, none, f1) else (x.1, some (f.readErr.getD Error.EOF), f1)

/-! ## internal/watcher.go: event types -/

/-- Source: the constants `FileChangeEventUnknown` .. `FileChangeEventGone`. -/
inductive FileChangeEventType where
  | Unknown
  | Truncated
  | Appended
  | Gone
  deriving DecidableEq

/-! ## tailf.go -/

/-- Source: `type Config struct`. Durations are in nanoseconds. -/
structure Config where
  FlushInterval : Nat
  Offset : Int
  BufferSize : Nat
  TailFromOriginWhenGone : Bool
  TailFromOriginWhenTruncated : Bool
  deriving DecidableEq

/-- Source: `newDefaultConfig`. -/
def newDefaultConfig : Config :=
  { FlushInterval := 1000000000
    Offset := -1
    BufferSize := 1000
    TailFromOriginWhenGone := false
    TailFromOriginWhenTruncated := true }

/-- Source: `WithFlushInterval`. -/
def WithFlushInterval (interval : Nat) : Config → Config :=
  fun c => { c with FlushInterval := interval }

/-- Source: `WithOffset`. -/
def WithOffset (offset : Int) : Config → Config := fun c => { c with Offset := offset }

/-- Source: `WithBufferSize`. -/
def WithBufferSize (size : Nat) : Config → Config := fun c => { c with BufferSize := size }

/-- Source: `WithTailFromOriginWhenGone`. -/
def WithTailFromOriginWhenGone (b : Bool) : Config → Config :=
  fun c => { c with TailFromOriginWhenGone := b }

/-- Source: `WithTailFromOriginWhenTruncated`. -/
def WithTailFromOriginWhenTruncated (b : Bool) : Config → Config :=
  fun c => { c with TailFromOriginWhenTruncated := b }

/-- Source: `type tailer struct`. The watcher field is represented by the event script given to
the loop. -/
structure tailer where
  filename : String
  file : File
  config : Config
  pos : Int
  err : Option Error
  deriving DecidableEq

/-- Source: `newTailerFromFile`. -/
def newTailerFromFile (f : File) (config : Config) : Except Error tailer :=
  match f.Stat with
  | .error e => .error e
  | .ok stat =>
    let pos := if config.Offset < 0 ∨ config.Offset > stat.2 then stat.2 else config.Offset
    match f.Seek pos with
    | .error e => .error e
    | .ok (f1, offset) =>
      .ok { filename := stat.1, file := f1, config := config, pos := offset, err := none }

/-- Source: `(*tailer).Pos`, with its nil-receiver guard. -/
def tailer.Pos : Option tailer → Int
  | none => 0
  | some s => s.pos

/-- Source: `(*tailer).Err`, with its nil-receiver guard. -/
def tailer.Err : Option tailer → Option Error
  | none => none
  | some s => s.err

/-- Source: `(*tailer).Filename`, with its nil-receiver guard. -/
def tailer.Filename : Option tailer → String
  | none => ""
  | some s => s.filename

/-- Source: `addPos`. -/
def tailer.addPos (s : tailer) (pos : Nat) : tailer := { s with pos := s.pos + (pos : Int) }

/-- Source: `setErr`. -/
def tailer.setErr (s : tailer) (err : Option Error) : tailer := { s with err := err }

/-- The cancellation signal as one read pass meets it: `doneAfter = some n` means that
`ctx.Done()` is found closed from the poll number `n` (counted from 0) on, `none` that it stays
open during the pass; `err` is what `ctx.Err()` then returns. -/
structure Context where
  doneAfter : Option Nat
  err : Error
  deriving DecidableEq

/-- Whether `<-ctx.Done()` is ready at this poll. -/
def Context.Done (ctx : Context) : Bool := ctx.doneAfter == some 0

/-- The context one poll later. -/
def Context.next (ctx : Context) : Context := { ctx with doneAfter := ctx.doneAfter.map Nat.pred }

/-- The state of `(*tailer).loop`: the receiver, the local `buf`, and the lines sent on
`resultC` so far. The local reader `r` reads through `s.file`. -/
structure loopState where
  s : tailer
  buf : List Byte
  resultC : List (List Byte)
  deriving DecidableEq

/-- Source: the closure `read` of `(*tailer).loop`. The first argument bounds the number of
iterations of its `for` loop. -/
def read : Nat → Context → loopState → Except Abort (Option Error × loopState)
  | 0, _, _ => .error Abort.fuel
  | fuel + 1, ctx, v =>
    if ctx.Done then .ok (some ctx.err, v)
    else
      match ReadString v.s.file LF with
      | (x, err, f1) =>
        let v1 : loopState := { v with s := { v.s with file := f1 } }
        if err.isSome ∧ err ≠ some Error.EOF then .ok (err, v1)
        else if err.isSome then .ok (none, { v1 with buf := v1.buf ++ x })
        else if v1.buf.length > 0 then
          let r := v1.buf ++ x
          read fuel ctx.next
            { s := v1.s.addPos r.length, buf := [], resultC := v1.resultC ++ [DropCRLF r] }
        else
          read fuel ctx.next
            { v1 with s := v1.s.addPos x.length, resultC := v1.resultC ++ [DropCRLF x] }

/-- What the environment does before a read pass starts and while it runs: the bytes appended to
the file since the previous pass, the error the read at the end of the file will report, and
the cancellation signal. -/
structure PassInput where
  appended : List Byte
  readErr : Option Error
  ctx : Context
  deriving DecidableEq

/-- The file as a read pass finds it. -/
def File.grow (f : File) (p : PassInput) : File :=
  { f with content := f.content ++ p.appended, readErr := p.readErr }

/-- One call `read()`: the environment acts, then the closure runs. Its `for` loop consumes at
least one byte per iteration that does not return, so the bound given here is never reached
(`readPass_returns`). -/
def readPass (p : PassInput) (v : loopState) : Except Abort (Option Error × loopState) :=
  let f := v.s.file.grow p
  read (f.unread.length + 1) p.ctx { v with s := { v.s with file := f } }

/-- One event received from `eventC`, with the conditions of the read pass it triggers when it
is `Appended`. -/
structure Event where
  typ : FileChangeEventType
  pass : PassInput
  deriving DecidableEq

/-- Source: the `for ev := range eventC` loop of `(*tailer).loop`. The end of the list is the
channel being closed. -/
def eventLoop : List Event → loopState → Except Abort loopState
  | [], v => .ok v
  | ev :: evs, v =>
    match ev.typ with
    | .Gone => .ok { v with s := v.s.setErr (some Error.ErrFileGone) }
    | .Truncated => .ok { v with s := v.s.setErr (some Error.ErrFileTruncated) }
    | .Appended =>
      match readPass ev.pass v with
      | .error a => .error a
      | .ok (some e, v1) => .ok { v1 with s := v1.s.setErr (some e) }
      | .ok (none, v1) => eventLoop evs v1
    | .Unknown => .error (Abort.panic "unreachable")

/-- What the environment does during one run of a Tailer: the conditions of the first read pass,
the error of `s.watcher.Watch(ctx)`, and the events received. -/
structure TailInput where
  first : PassInput
  watchErr : Option Error
  events : List Event
  deriving DecidableEq

/-- Source: `(*tailer).loop`. -/
def tailer.loop (inp : TailInput) (s : tailer) : Except Abort loopState :=
  match readPass inp.first { s := s, buf := [], resultC := [] } with
  | .error a => .error a
  | .ok (some e, v) => .ok { v with s := v.s.setErr (some e) }
  | .ok (none, v) =>
    match inp.watchErr with
    | some e => .ok { v with s := v.s.setErr (some e) }
    | none => eventLoop inp.events v

/-- Source: `(*tailer).Tail`: the lines received from the returned channel until it is closed,
and the receiver afterwards. -/
def tailer.Tail (inp : TailInput) (s : tailer) : Except Abort (List (List Byte) × tailer) :=
  match tailer.loop inp s with
  | .error a => .error a
  | .ok v => .ok (v.resultC, v.s)

/-! ## internal/file.go: opening by polling -/

/-- One turn of the `select` of `OpenFileLoop`: the context is done, or the ticker fires and
`OpenFile` is tried. -/
inductive OpenStep where
  | done
  | tick (r : Except Error File)

/-- Source: `OpenFileLoop`. The list is what each turn of its `select` meets; `ctxErr` is what
`ctx.Err()` returns. The loop has no bound of its own: a list that ends before the file is
opened or the context is done leaves it waiting. -/
def OpenFileLoop (ctxErr : Error) : List OpenStep → Except Abort (Except Error File)
  | [] => .error Abort.fuel
  | OpenStep.done :: _ => .ok (.error ctxErr)
  | OpenStep.tick (.ok f) :: _ => .ok (.ok f)
  | OpenStep.tick (.error _) :: rest => OpenFileLoop ctxErr rest

/-! ## continue.go -/

/-- Source: `type continueTailer struct`. The field `tailer` is a nil interface until the first
`open` succeeds. -/
structure continueTailer where
  filename : String
  config : Config
  tailer : Option tailer
  err : Option Error
  deriving DecidableEq

/-- Source: `NewContinueTailer`; an option is a function on the configuration. -/
def NewContinueTailer (filename : String) (opts : List (Config → Config)) : continueTailer :=
  { filename := filename
    config := opts.foldl (fun c opt => opt c) newDefaultConfig
    tailer := none
    err := none }

/-- Source: `(*continueTailer).Filename`. -/
def continueTailer.Filename (s : continueTailer) : String := s.filename

/-- Source: `(*continueTailer).Pos`: `s.tailer.Pos()`, a method call on the interface value,
which panics when the interface is nil. -/
def continueTailer.Pos (s : continueTailer) : Except Abort Int :=
  match s.tailer with
  | none => .error (Abort.panic "invalid memory address or nil pointer dereference")
  | some t => .ok (tailer.Pos (some t))

/-- Source: `(*continueTailer).Err`. -/
def continueTailer.Err (s : continueTailer) : Except Abort (Option Error) :=
  if s.err ≠ none then .ok s.err
  else
    match s.tailer with
    | none => .error (Abort.panic "invalid memory address or nil pointer dereference")
    | some t => .ok (tailer.Err (some t))

/-- Source: `(*continueTailer).setErr`. -/
def continueTailer.setErr (s : continueTailer) (err : Option Error) : continueTailer :=
  { s with err := err }

/-- What the environment does during one turn of the outer loop: what `OpenFileLoop` meets, what
`ctx.Err()` returns, and the run of the Tailer that is opened. -/
structure Generation where
  opening : List OpenStep
  ctxErr : Error
  run : TailInput

/-- Source: `(*continueTailer).open`. -/
def continueTailer.open (g : Generation) (s : continueTailer) :
    Except Abort (Option Error × continueTailer) :=
  match OpenFileLoop g.ctxErr g.opening with
  | .error a => .error a
  | .ok (.error e) => .ok (some e, s)
  | .ok (.ok f) =>
    match newTailerFromFile f s.config with
    | .error e => .ok (some e, s)
    | .ok t => .ok (none, { s with tailer := some t })

/-- Source: the closure `toOffset` of `(*continueTailer).loop`. -/
def toOffset (isOrigin : Bool) : Int := if isOrigin then 0 else -1

/-- The state of `(*continueTailer).loop`: the receiver and the lines sent on `resultC`. -/
structure continueState where
  s : continueTailer
  resultC : List (List Byte)
  deriving DecidableEq

/-- Source: the body of the `for` loop of `(*continueTailer).loop`. The result says whether the
loop goes on (`true`, from `continue`) or returns (`false`). -/
def continueTailer.iterate (g : Generation) (v : continueState) :
    Except Abort (Bool × continueState) :=
  match continueTailer.open g v.s with
  | .error a => .error a
  | .ok (some e, s1) => .ok (false, { v with s := s1.setErr (some e) })
  | .ok (none, s1) =>
    match s1.tailer with
    | none => .error (Abort.panic "invalid memory address or nil pointer dereference")
    | some t =>
      match tailer.Tail g.run t with
      | .error a => .error a
      | .ok (lines, t1) =>
        let s2 : continueTailer := { s1 with tailer := some t1 }
        let v2 : continueState := { s := s2, resultC := v.resultC ++ lines }
        if tailer.Err (some t1) = some Error.ErrFileGone then
          .ok (true, { v2 with s := { s2 with config :=
            { s2.config with Offset := toOffset s2.config.TailFromOriginWhenGone } } })
        else if tailer.Err (some t1) = some Error.ErrFileTruncated then
          .ok (true, { v2 with s := { s2 with config :=
            { s2.config with Offset := toOffset s2.config.TailFromOriginWhenTruncated } } })
        else .ok (false, { v2 with s := s2.setErr (tailer.Err (some t1)) })

/-- Source: `(*continueTailer).loop`. The loop has no bound of its own: a list of generations
that ends while the loop goes on leaves it running. -/
def continueTailer.loop : List Generation → continueState → Except Abort continueState
  | [], _ => .error Abort.fuel
  | g :: gs, v =>
    match continueTailer.iterate g v with
    | .error a => .error a
    | .ok (true, v1) => continueTailer.loop gs v1
    | .ok (false, v1) => .ok v1

/-- Source: `(*continueTailer).Tail`: the lines received from the returned channel until it is
closed, and the receiver afterwards. -/
def continueTailer.Tail (gs : List Generation) (s : continueTailer) :
    Except Abort (List (List Byte) × continueTailer) :=
  match continueTailer.loop gs { s := s, resultC := [] } with
  | .error a => .error a
  | .ok v => .ok (v.resultC, v.s)

/-! ## Vocabulary of the specification -/

/-- The split of a byte string at its line feeds: the LF-terminated segments, each with its
line feed, and the fragment after the last line feed. -/
def splitLF : List Byte → List (List Byte) × List Byte
  | [] => ([], [])
  | b :: bs =>
    if b = LF then ([b] :: (splitLF bs).1, (splitLF bs).2)
    else
      match (splitLF bs).1 with
      | [] => ([], b :: (splitLF bs).2)
      | l :: ls => ((b :: l) :: ls, (splitLF bs).2)

/-- The LF-terminated segments of a byte string, in order, each with its line feed. -/
def segments (l : List Byte) : List (List Byte) := (splitLF l).1

/-- The unterminated fragment that follows the last line feed of a byte string. -/
def fragment (l : List Byte) : List Byte := (splitLF l).2

/-- The terminator stripping of the specification, in its words: a trailing CRLF is removed,
else a trailing LF, else nothing. -/
def stripTerminator (s : List Byte) : List Byte :=
  if [CR, LF] <:+ s then s.take (s.length - 2)
  else if [LF] <:+ s then s.take (s.length - 1)
  else s

/-- A read pass that returns a nil error when it starts with `pending` unread bytes: the read at
the end of the file reports end of file, and the context is not found done at any of its polls,
one per complete line and one more. -/
def PassInput.succeeds (p : PassInput) (pending : List Byte) : Prop :=
  (p.readErr = none ∨ p.readErr = some Error.EOF) ∧
    ∀ n ∈ p.ctx.doneAfter, (pending ++ p.appended).count LF < n

instance (p : PassInput) (pending : List Byte) : Decidable (p.succeeds pending) := by
  unfold PassInput.succeeds
  infer_instance

/-- The bytes appended to the file during the read passes of the events. -/
def appendedBy (evs : List Event) : List Byte := (evs.map (fun ev => ev.pass.appended)).flatten

/-- The state a read pass that returns a nil error leaves. -/
def afterRead (v : loopState) : loopState :=
  { s := { v.s with
      file := { v.s.file with offset := v.s.file.offset + v.s.file.unread.length }
      pos := v.s.pos + (((segments (v.buf ++ v.s.file.unread)).flatten.length : Nat) : Int) }
    buf := fragment (v.buf ++ v.s.file.unread)
    resultC := v.resultC ++ (segments (v.buf ++ v.s.file.unread)).map DropCRLF }

/-- The state of the loop of a Tailer started as `s` once its read passes have consumed the
bytes `T` that follow the start offset. -/
structure Tailed (s : tailer) (T : List Byte) (v : loopState) : Prop where
  resultC : v.resultC = (segments T).map DropCRLF
  buf : v.buf = fragment T
  pos : v.s.pos = s.pos + (((segments T).flatten.length : Nat) : Int)
  err : v.s.err = s.err
  config : v.s.config = s.config
  filename : v.s.filename = s.filename
  unread : v.s.file.unread = []
  offset : v.s.file.offset ≤ v.s.file.content.length

/-- A run during which the file only grows and nothing fails: the first read pass returns a nil
error, `Watch` succeeds, and every event is `Appended` with a read pass that returns a nil
error. A read pass that returned a nil error has read the file to its end, so the passes
after the first start with no unread byte. -/
def TailInput.appendsOnly (inp : TailInput) (s : tailer) : Prop :=
  inp.first.succeeds s.file.unread ∧ inp.watchErr = none ∧
    ∀ ev ∈ inp.events, ev.typ = FileChangeEventType.Appended ∧ ev.pass.succeeds []

instance (inp : TailInput) (s : tailer) : Decidable (inp.appendsOnly s) := by
  unfold TailInput.appendsOnly
  infer_instance

/-! ## Inputs used in the statements and their instances -/

/-- A file that holds `content`, just opened, whose operations succeed. -/
def fileOf (content : List Byte) : File :=
  { name := "log", content := content, offset := 0, statErr := none, seekErr := none,
    readErr := none }

/-- A context that is not cancelled during the read pass. -/
def background : Context := { doneAfter := none, err := Error.Canceled }

/-- A read pass that finds `chunk` appended and meets no failure. -/
def appendPass (chunk : List Byte) : PassInput :=
  { appended := chunk, readErr := none, ctx := background }

/-- An `Appended` event whose read pass finds `chunk` appended. -/
def appendedEvent (chunk : List Byte) : Event :=
  { typ := FileChangeEventType.Appended, pass := appendPass chunk }

/-- The run in which the writes `chunks` are each followed by an `Appended` event. -/
def appendRun (chunks : List (List Byte)) : TailInput :=
  { first := appendPass [], watchErr := none, events := chunks.map appendedEvent }

/-- All the bytes appended to the file during the read passes of a run. -/
def TailInput.appended (inp : TailInput) : List Byte := inp.first.appended ++ appendedBy inp.events

/-- The configuration with the given offset, the other fields being the defaults. -/
def withOffset (offset : Int) : Config := WithOffset offset newDefaultConfig

/-- The lines a run of `(*tailer).loop` sent, when it returned. -/
def sent (r : Except Abort loopState) : Option (List (List Byte)) :=
  match r with
  | .ok v => some v.resultC
  | .error _ => none

/-- The Tailer built by `newTailerFromFile`, when it succeeded. -/
def built (r : Except Error tailer) : Option tailer :=
  match r with
  | .ok s => some s
  | .error _ => none

/-- The Tailer that `newTailerFromFile` builds on an empty file with offset 0. -/
def freshTailer : tailer :=
  { filename := "log", file := fileOf [], config := withOffset 0, pos := 0, err := none }

/-- The writes of the example of the test suite, one read pass after each. -/
def exampleWrites : List (List Byte) :=
  [bytes "first\n", bytes "sec", bytes "ond\n", bytes "t", bytes "hi", bytes "rd", bytes "\n",
    bytes "fourth"]

/-- The error `Err()` reports once `Tail` has returned and its channel is drained. -/
def finalErr (r : Except Abort (List (List Byte) × tailer)) : Option (Option Error) :=
  match r with
  | .ok x => some (tailer.Err (some x.2))
  | .error _ => none

/-- The read passes of a run, in order. -/
def TailInput.passes (inp : TailInput) : List PassInput :=
  inp.first :: inp.events.map (fun ev => ev.pass)

/-- A turn of the outer loop in which the file "first\n" is opened at the first tick, read, and
then reported by the watcher with the given event. -/
def endedBy (typ : FileChangeEventType) : Generation :=
  { opening := [OpenStep.tick (.ok (fileOf (bytes "first\n")))]
    ctxErr := Error.DeadlineExceeded
    run := { first := appendPass [], watchErr := none,
             events := [{ typ := typ, pass := appendPass [] }] } }

/-- A turn of the outer loop in which the file reopened holds `content`, nothing is appended,
and the context expires. -/
def reopened (content : List Byte) : Generation :=
  { opening := [OpenStep.tick (.ok (fileOf content))]
    ctxErr := Error.DeadlineExceeded
    run := appendRun [] }

/-- The state in which `(*continueTailer).loop` starts. -/
def continueTailer.start (s : continueTailer) : continueState := { s := s, resultC := [] }

/-! ## internal/watcher.go: the watch loop -/

/-- What `os.Stat` returns about the file, as far as the watcher reads it: `Size()` and
`ModTime()`. Times are instants counted in nanoseconds. -/
structure FileInfo where
  Size : Int
  ModTime : Nat
  deriving DecidableEq

/-- Source: `type watcher struct`. -/
structure watcher where
  filename : String
  size : Int
  interval : Nat
  deriving DecidableEq

/-- Source: `type fileChangeEvent struct`. -/
structure fileChangeEvent where
  typ : FileChangeEventType
  tim : Nat
  deriving DecidableEq

/-- Source: `(*fileChangeEvent).Type`. -/
def fileChangeEvent.Type (s : fileChangeEvent) : FileChangeEventType := s.typ

/-- Source: `(*fileChangeEvent).Time`. -/
def fileChangeEvent.Time (s : fileChangeEvent) : Nat := s.tim

/-- Source: `NewWatcher`. -/
def NewWatcher (filename : String) (interval : Nat) : watcher :=
  { filename := filename, size := 0, interval := interval }

/-- One turn of the `select` of `(*watcher).watch`: the context is done, or the ticker fires;
then `stat` is what `os.Stat` returns and `now` what `time.Now()` would return. -/
inductive Tick where
  | done
  | tick (stat : Except Error FileInfo) (now : Nat)

/-- The state of `(*watcher).watch`: the receiver and the events sent on `eventC`. -/
structure watchState where
  s : watcher
  eventC : List fileChangeEvent
  deriving DecidableEq

/-- Source: the part of `(*watcher).watch` that follows a successful `os.Stat`: the `switch`
on the sizes and the assignment `s.size = stat.Size()`. -/
def watcher.observe (stat : FileInfo) (v : watchState) : watchState :=
  let v1 : watchState :=
    if v.s.size > stat.Size then
      { v with eventC := v.eventC ++
          [{ typ := FileChangeEventType.Truncated, tim := stat.ModTime }] }
    else if v.s.size < stat.Size then
      { v with eventC := v.eventC ++
          [{ typ := FileChangeEventType.Appended, tim := stat.ModTime }] }
    else v
  { v1 with s := { v1.s with size := stat.Size } }

/-- Source: `(*watcher).watch`. The list is what each turn of its `select` meets. The result
says whether the function returned (the caller then closes `eventC`); a list that ends before
that leaves the loop waiting for the next turn. -/
def watcher.watch : List Tick → watchState → watchState × Bool
  | [], v => (v, false)
  | Tick.done :: _, v => (v, true)
  | Tick.tick (.error _) now :: _, v =>
    ({ v with eventC := v.eventC ++ [{ typ := FileChangeEventType.Gone, tim := now }] }, true)
  | Tick.tick (.ok stat) _ :: rest, v => watcher.watch rest (watcher.observe stat v)

/-- Source: `(*watcher).Watch`: the first `os.Stat` sets the baseline or fails; then the events
sent on the returned channel by `watch`, and whether the channel is closed. -/
def watcher.Watch (stat : Except Error FileInfo) (ticks : List Tick) (s : watcher) :
    Except Error (List fileChangeEvent × Bool) :=
  match stat with
  | .error e => .error e
  | .ok info =>
    let r := watcher.watch ticks { s := { s with size := info.Size }, eventC := [] }
    .ok (r.1.eventC, r.2)

/-- The events the watch loop sends, from the baseline size `b`, on the given turns. -/
def watched (b : Int) (ticks : List Tick) : List fileChangeEvent :=
  (watcher.watch ticks { s := { NewWatcher "log" 0 with size := b }, eventC := [] }).1.eventC

/-- A turn of the watch loop at which `os.Stat` succeeds. -/
def Tick.observed : Tick → Prop
  | Tick.tick (.ok _) _ => True
  | _ => False

/-- The turn at which the ticker fires and the file has the given size. -/
def sized (size : Int) : Tick := Tick.tick (.ok { Size := size, ModTime := 0 }) 0

/-! ## Inputs of the statements on the end of the outer loop -/

/-- An error that this package did not create: neither `ErrFileGone` nor
`ErrFileTruncated`, which only `(*tailer).loop` sets. -/
def Error.foreign (e : Error) : Prop := e ≠ Error.ErrFileGone ∧ e ≠ Error.ErrFileTruncated

instance (e : Error) : Decidable e.foreign := by
  unfold Error.foreign
  infer_instance

/-- The errors that the context and the operating system report while the file is opened are
not the two errors of this package. -/
def Generation.foreignErrors (g : Generation) : Prop :=
  g.ctxErr.foreign ∧
    ∀ f, OpenStep.tick (.ok f) ∈ g.opening →
      (∀ e, f.statErr = some e → e.foreign) ∧ (∀ e, f.seekErr = some e → e.foreign)

/-- A turn of the outer loop in which the file does not exist at the first tick and the context
is cancelled before the next one. -/
def cancelledWhileOpening : Generation :=
  { opening := [OpenStep.tick (.error (Error.other "no such file or directory")), OpenStep.done]
    ctxErr := Error.Canceled
    run := appendRun [] }

/-- A turn of the outer loop in which the file is opened and the first read fails. -/
def readFails : Generation :=
  { opening := [OpenStep.tick (.ok (fileOf (bytes "first\n")))]
    ctxErr := Error.Canceled
    run := { first := { appended := [], readErr := some (Error.other "input/output error"),
                        ctx := background }
             watchErr := none
             events := [] } }

/-! ## The outcome of a read pass -/

/-- A read pass that starts with `pending` unread bytes finds the context done: `ctx.Done()` is
closed at one of its polls, the poll before each complete line or the one after the last. -/
def PassInput.foundDone (p : PassInput) (pending : List Byte) : Prop :=
  ∃ n ∈ p.ctx.doneAfter, n ≤ (pending ++ p.appended).count LF

instance (p : PassInput) (pending : List Byte) : Decidable (p.foundDone pending) := by
  unfold PassInput.foundDone
  infer_instance

/-- The error that a read pass starting with `pending` unread bytes returns: the error of the
context when the pass finds it done, else the error of the read at the end of the file unless
it is `io.EOF`, else nil. -/
def PassInput.failure (p : PassInput) (pending : List Byte) : Option Error :=
  if p.foundDone pending then some p.ctx.err
  else
    match p.readErr with
    | some e => if e = Error.EOF then none else some e
    | none => none

/-- The read passes succeed, the first starting with `pending` unread bytes and the others with
none, each pass that succeeds having read the file to its end. -/
def passesSucceed (pending : List Byte) : List PassInput → Prop
  | [] => True
  | p :: ps => p.succeeds pending ∧ ∀ q ∈ ps, q.succeeds []

/-- The error of the first read pass that fails, the first pass starting with `pending` unread
bytes and each pass after a successful one with none; nil when no pass fails. -/
def firstFailure (pending : List Byte) : List PassInput → Option Error
  | [] => none
  | p :: ps =>
    match p.failure pending with
    | some e => some e
    | none => firstFailure [] ps

/-- A run in which the second event finds "b\n" appended, the read at the end of the file fails,
and the context is done only at the poll 1000, which the pass does not reach. -/
def readFailsLate : TailInput :=
  { first := appendPass []
    watchErr := none
    events := [appendedEvent (bytes "a\n"),
      { typ := FileChangeEventType.Appended
        pass := { appended := bytes "b\n"
                  readErr := some (Error.other "input/output error")
                  ctx := { doneAfter := some 1000, err := Error.Canceled } } },
      appendedEvent (bytes "c\n")] }

/-- A run in which the read pass of the second event finds the context done at its second
poll, after the line "b". -/
def cancelledWhileReading : TailInput :=
  { first := appendPass []
    watchErr := none
    events := [appendedEvent (bytes "a\n"),
      { typ := FileChangeEventType.Appended
        pass := { appended := bytes "b\nc\n"
                  readErr := none
                  ctx := { doneAfter := some 1, err := Error.DeadlineExceeded } } }] }

/-! ## The split at line feeds -/

theorem splitLF_cons_lf (bs : List Byte) :
    splitLF (LF :: bs) = ([LF] :: segments bs, fragment bs) := by
  simp [splitLF, segments, fragment]

theorem splitLF_cons_ne (b : Byte) (bs : List Byte) (hb : b ≠ LF) :
    splitLF (b :: bs) =
      match (splitLF bs).1 with
      | [] => ([], b :: (splitLF bs).2)
      | l :: ls => ((b :: l) :: ls, (splitLF bs).2) := by
  rw [splitLF]; simp [hb]

theorem segments_nil : segments [] = [] := rfl
theorem fragment_nil : fragment [] = [] := rfl

/-- A prefix without line feed joins the first segment, or the fragment when there is none. -/
theorem splitLF_append_of_not_mem (B : List Byte) (hB : LF ∉ B) (t : List Byte) :
    splitLF (B ++ t) =
      match segments t with
      | [] => ([], B ++ fragment t)
      | l :: ls => ((B ++ l) :: ls, fragment t) := by
  induction B with
  | nil =>
    simp only [List.nil_append, segments, fragment]
    cases h : (splitLF t).1 <;> simp [← h]
  | cons b B ih =>
    have hb : b ≠ LF := fun h => hB (by simp [h])
    have hB1 : LF ∉ B := fun h => hB (by simp [h])
    have := ih hB1
    rw [List.cons_append, splitLF_cons_ne _ _ hb]
    simp only [segments, fragment] at this ⊢
    rw [this]
    cases h : (splitLF t).1 <;> simp

theorem readUntil_true {delim : Byte} (U : List Byte) (h : (readUntil delim U).2 = true) :
    U = (readUntil delim U).1 ++ U.drop (readUntil delim U).1.length := by
  induction U with
  | nil => simp [readUntil] at h
  | cons b bs ih =>
    by_cases hb : b = delim
    · simp [readUntil, hb]
    · simp only [readUntil, hb, if_false] at h ⊢
      simpa using ih h

theorem readUntil_length_pos {delim : Byte} (U : List Byte) (h : (readUntil delim U).2 = true) :
    0 < (readUntil delim U).1.length := by
  cases U with
  | nil => simp [readUntil] at h
  | cons b bs => by_cases hb : b = delim <;> simp [readUntil, hb]

theorem readUntil_false {delim : Byte} (U : List Byte) (h : (readUntil delim U).2 = false) :
    (readUntil delim U).1 = U ∧ delim ∉ U := by
  induction U with
  | nil => simp [readUntil]
  | cons b bs ih =>
    by_cases hb : b = delim
    · simp [readUntil, hb] at h
    · simp only [readUntil, hb, if_false] at h ⊢
      have := ih h
      refine ⟨by rw [this.1], ?_⟩
      simp [this.2, Ne.symm hb]

theorem splitLF_of_not_mem (U : List Byte) (h : LF ∉ U) : splitLF U = ([], U) := by
  have := splitLF_append_of_not_mem U h []
  simpa [segments_nil, fragment_nil] using this

/-- The line returned by `ReadString` is the first segment. -/
theorem splitLF_readUntil_true (U : List Byte) (h : (readUntil LF U).2 = true) :
    splitLF U = ((readUntil LF U).1 :: segments (U.drop (readUntil LF U).1.length),
      fragment (U.drop (readUntil LF U).1.length)) := by
  induction U with
  | nil => simp [readUntil] at h
  | cons b bs ih =>
    by_cases hb : b = LF
    · subst hb
      simp [readUntil, splitLF, segments, fragment]
    · simp only [readUntil, hb, if_false] at h ⊢
      have := ih h
      rw [splitLF_cons_ne _ _ hb, this]
      simp

theorem segments_cons_lf (bs : List Byte) : segments (LF :: bs) = [LF] :: segments bs := by
  simp [segments, splitLF]

theorem fragment_cons_lf (bs : List Byte) : fragment (LF :: bs) = fragment bs := by
  simp [fragment, splitLF]

theorem segments_cons_ne (b : Byte) (bs : List Byte) (hb : b ≠ LF) :
    segments (b :: bs) =
      match segments bs with
      | [] => []
      | l :: ls => (b :: l) :: ls := by
  simp only [segments, splitLF_cons_ne _ _ hb]
  cases (splitLF bs).1 <;> rfl

theorem fragment_cons_ne (b : Byte) (bs : List Byte) (hb : b ≠ LF) :
    fragment (b :: bs) =
      match segments bs with
      | [] => b :: fragment bs
      | _ :: _ => fragment bs := by
  simp only [segments, fragment, splitLF_cons_ne _ _ hb]
  cases (splitLF bs).1 <;> rfl

/-- The segments followed by the fragment are the byte string. -/
theorem segments_flatten_append_fragment (l : List Byte) :
    (segments l).flatten ++ fragment l = l := by
  induction l with
  | nil => rfl
  | cons b bs ih =>
    by_cases hb : b = LF
    · subst hb
      rw [segments_cons_lf, fragment_cons_lf]
      simpa using ih
    · rw [segments_cons_ne _ _ hb, fragment_cons_ne _ _ hb]
      cases h : segments bs with
      | nil => simpa [h] using ih
      | cons l ls => simpa [h] using ih

/-- The fragment holds no line feed. -/
theorem not_mem_fragment (l : List Byte) : LF ∉ fragment l := by
  induction l with
  | nil => simp [fragment, splitLF]
  | cons b bs ih =>
    by_cases hb : b = LF
    · subst hb
      rw [fragment_cons_lf]; exact ih
    · rw [fragment_cons_ne _ _ hb]
      cases h : segments bs with
      | nil => simp [ih, Ne.symm hb]
      | cons l ls => simpa using ih

/-- Every segment is a body without line feed followed by one line feed. -/
theorem segment_shape (l : List Byte) :
    ∀ s ∈ segments l, ∃ body, s = body ++ [LF] ∧ LF ∉ body := by
  induction l with
  | nil => simp [segments, splitLF]
  | cons b bs ih =>
    by_cases hb : b = LF
    · subst hb
      rw [segments_cons_lf]
      intro s hs
      rcases List.mem_cons.mp hs with h | h
      · exact ⟨[], by simp [h]⟩
      · exact ih s h
    · rw [segments_cons_ne _ _ hb]
      cases h : segments bs with
      | nil => simp
      | cons l ls =>
        intro s hs
        rcases List.mem_cons.mp hs with h1 | h1
        · obtain ⟨body, hbody, hno⟩ := ih l (by simp [h])
          exact ⟨b :: body, by simp [h1, hbody], by simp [hno, Ne.symm hb]⟩
        · exact ih s (by simp [h, h1])

/-- Splitting a concatenation: the fragment of the first part joins the second part. -/
theorem splitLF_append (A B : List Byte) :
    segments (A ++ B) = segments A ++ segments (fragment A ++ B) ∧
      fragment (A ++ B) = fragment (fragment A ++ B) := by
  induction A with
  | nil => simp [segments, fragment, splitLF]
  | cons b A ih =>
    by_cases hb : b = LF
    · subst hb
      simp only [List.cons_append, segments_cons_lf, fragment_cons_lf, ih.1]
      exact ⟨by simp, ih.2⟩
    · cases h : segments A with
      | nil =>
        have h1 : segments (b :: A) = [] := by rw [segments_cons_ne _ _ hb, h]
        have h2 : fragment (b :: A) = b :: A := by
          have := segments_flatten_append_fragment (b :: A)
          simpa [h1] using this
        simp [h1, h2]
      | cons l ls =>
        have h1 : segments (b :: A) = (b :: l) :: ls := by rw [segments_cons_ne _ _ hb, h]
        have h2 : fragment (b :: A) = fragment A := by rw [fragment_cons_ne _ _ hb, h]
        have h3 : segments (b :: (A ++ B)) = (b :: l) :: (ls ++ segments (fragment A ++ B)) := by
          rw [segments_cons_ne _ _ hb, ih.1, h]; rfl
        have h4 : fragment (b :: (A ++ B)) = fragment (A ++ B) := by
          rw [fragment_cons_ne _ _ hb, ih.1, h]; rfl
        rw [List.cons_append, h1, h2, h3, h4]
        exact ⟨by simp, ih.2⟩

theorem segments_append (A B : List Byte) :
    segments (A ++ B) = segments A ++ segments (fragment A ++ B) := (splitLF_append A B).1

theorem fragment_append (A B : List Byte) :
    fragment (A ++ B) = fragment (fragment A ++ B) := (splitLF_append A B).2

/-! ## The read pass -/

theorem count_readUntil_true (U : List Byte) (h : (readUntil LF U).2 = true) :
    U.count LF = (U.drop (readUntil LF U).1.length).count LF + 1 := by
  induction U with
  | nil => simp [readUntil] at h
  | cons b bs ih =>
    by_cases hb : b = LF
    · subst hb
      simp [readUntil]
    · simp only [readUntil, hb, if_false] at h ⊢
      have := ih h
      simp [List.count_cons, hb, this]

/-- One iteration of `read` that finds a complete line. -/
theorem read_line (fuel : Nat) (ctx : Context) (v : loopState) (hd : ctx.Done = false)
    (hx : (readUntil LF v.s.file.unread).2 = true) :
    read (fuel + 1) ctx v =
      read fuel ctx.next
        { s := { v.s with
            file := { v.s.file with
              offset := v.s.file.offset + (readUntil LF v.s.file.unread).1.length }
            pos := v.s.pos +
              (((v.buf ++ (readUntil LF v.s.file.unread).1).length : Nat) : Int) }
          buf := []
          resultC := v.resultC ++ [DropCRLF (v.buf ++ (readUntil LF v.s.file.unread).1)] } := by
  rw [read]
  simp only [hd, Bool.false_eq_true, if_false, ReadString, hx, if_true, Option.isSome_none,
    false_and, tailer.addPos]
  by_cases hb : v.buf.length > 0
  · simp only [hb, if_true]
  · have : v.buf = [] := by
      cases hv : v.buf with
      | nil => rfl
      | cons a l => simp [hv] at hb
    simp [this]

/-- The iteration of `read` that reaches the end of the file. -/
theorem read_eof (fuel : Nat) (ctx : Context) (v : loopState) (hd : ctx.Done = false)
    (hx : (readUntil LF v.s.file.unread).2 = false)
    (herr : v.s.file.readErr = none ∨ v.s.file.readErr = some Error.EOF) :
    read (fuel + 1) ctx v =
      .ok (none,
        { v with
          s := { v.s with
            file := { v.s.file with offset := v.s.file.offset + v.s.file.unread.length } }
          buf := v.buf ++ v.s.file.unread }) := by
  have he : v.s.file.readErr.getD Error.EOF = Error.EOF := by
    rcases herr with h | h <;> simp [h]
  rw [read]
  simp [hd, ReadString, hx, he, (readUntil_false _ hx).1]

theorem unread_advance (f : File) (n : Nat) :
    File.unread { f with offset := f.offset + n } = f.unread.drop n := by
  simp [File.unread, List.drop_drop, Nat.add_comm]

theorem read_succeeds (fuel : Nat) (ctx : Context) (v : loopState) (hbuf : LF ∉ v.buf)
    (hfuel : v.s.file.unread.length < fuel)
    (herr : v.s.file.readErr = none ∨ v.s.file.readErr = some Error.EOF)
    (hctx : ∀ n, ctx.doneAfter = some n → v.s.file.unread.count LF < n) :
    read fuel ctx v = .ok (none, afterRead v) := by
  induction fuel generalizing ctx v with
  | zero => exact absurd hfuel (Nat.not_lt_zero _)
  | succ fuel ih =>
    have hdone : ctx.Done = false := by
      simp only [Context.Done, beq_eq_false_iff_ne, ne_eq]
      intro h0
      exact Nat.not_lt_zero _ (hctx 0 h0)
    cases hx : (readUntil LF v.s.file.unread).2 with
    | false =>
      obtain ⟨hx1, hx2⟩ := readUntil_false _ hx
      have hT : splitLF (v.buf ++ v.s.file.unread) = ([], v.buf ++ v.s.file.unread) :=
        splitLF_of_not_mem _ (by simp [hbuf, hx2])
      rw [read_eof fuel ctx v hdone hx herr]
      simp [afterRead, segments, fragment, hT]
    | true =>
      have hsplit := splitLF_readUntil_true _ hx
      have hU := readUntil_true _ hx
      have hcnt := count_readUntil_true _ hx
      have hpos := readUntil_length_pos _ hx
      rw [read_line fuel ctx v hdone hx]
      set x := (readUntil LF v.s.file.unread).1 with hxdef
      have hlen : v.s.file.unread.length = x.length + (v.s.file.unread.drop x.length).length := by
        conv_lhs => rw [hU]
        simp
      rw [ih]
      · have hT : splitLF (v.buf ++ v.s.file.unread) =
            ((v.buf ++ x) :: segments (v.s.file.unread.drop x.length),
              fragment (v.s.file.unread.drop x.length)) := by
          rw [splitLF_append_of_not_mem _ hbuf]
          simp [segments, fragment, hsplit]
        simp only [afterRead, unread_advance, List.nil_append, segments, fragment, hT]
        simp [Nat.add_assoc, Int.add_assoc]
        omega
      · simp
      · simp only [unread_advance]; omega
      · simpa using herr
      · intro n hn
        simp only [unread_advance]
        simp only [Context.next, Option.map_eq_some'] at hn
        obtain ⟨m, hm, hmn⟩ := hn
        have h1 := hctx m hm
        have h2 : m ≠ 0 := by
          intro h0
          rw [h0] at hm
          simp [Context.Done, hm] at hdone
        have h3 : m = n + 1 := by
          cases m with
          | zero => exact absurd rfl h2
          | succ k => simpa using hmn
        omega

theorem unread_grow (f : File) (p : PassInput) (h : f.offset ≤ f.content.length) :
    (f.grow p).unread = f.unread ++ p.appended := by
  simp [File.unread, File.grow, List.drop_append_of_le_length h]

theorem readPass_succeeds (p : PassInput) (v : loopState) (hbuf : LF ∉ v.buf)
    (hoff : v.s.file.offset ≤ v.s.file.content.length) (hp : p.succeeds v.s.file.unread) :
    readPass p v = .ok (none, afterRead { v with s := { v.s with file := v.s.file.grow p } }) := by
  unfold readPass
  apply read_succeeds
  · exact hbuf
  · exact Nat.lt_succ_self _
  · simpa [File.grow] using hp.1
  · intro n hn
    simp only [unread_grow _ _ hoff]
    exact hp.2 n hn

theorem afterRead_offset (v : loopState) (hoff : v.s.file.offset ≤ v.s.file.content.length) :
    (afterRead v).s.file.offset = v.s.file.content.length ∧
      (afterRead v).s.file.content = v.s.file.content := by
  simp only [afterRead, File.unread, List.length_drop, and_true]
  omega

theorem tailed_first (s : tailer) (p : PassInput)
    (hoff : s.file.offset ≤ s.file.content.length) (hp : p.succeeds s.file.unread) :
    ∃ v, readPass p { s := s, buf := [], resultC := [] } = .ok (none, v) ∧
      Tailed s (s.file.unread ++ p.appended) v := by
  refine ⟨_, readPass_succeeds p _ (by simp) hoff hp, ?_⟩
  have hg : (s.file.grow p).offset ≤ (s.file.grow p).content.length := by
    simp [File.grow]; omega
  have ho := afterRead_offset { s := { s with file := s.file.grow p }, buf := [], resultC := [] } hg
  constructor
  · simp [afterRead, unread_grow _ _ hoff]
  · simp [afterRead, unread_grow _ _ hoff]
  · simp [afterRead, unread_grow _ _ hoff]
  · simp [afterRead]
  · simp [afterRead]
  · simp [afterRead]
  · simp only [File.unread, ho.1, ho.2, List.drop_length]
  · rw [ho.1, ho.2]

theorem tailed_pass (s : tailer) (T : List Byte) (v : loopState) (p : PassInput)
    (h : Tailed s T v) (hp : p.succeeds []) :
    ∃ v1, readPass p v = .ok (none, v1) ∧ Tailed s (T ++ p.appended) v1 := by
  have hbuf : LF ∉ v.buf := by rw [h.buf]; exact not_mem_fragment T
  have hp1 : p.succeeds v.s.file.unread := by rw [h.unread]; exact hp
  refine ⟨_, readPass_succeeds p v hbuf h.offset hp1, ?_⟩
  have hg : (v.s.file.grow p).offset ≤ (v.s.file.grow p).content.length := by
    have := h.offset
    simp [File.grow]; omega
  have ho := afterRead_offset { v with s := { v.s with file := v.s.file.grow p } } hg
  have hu : (v.s.file.grow p).unread = p.appended := by
    rw [unread_grow _ _ h.offset, h.unread]; rfl
  constructor
  · simp [afterRead, hu, h.resultC, h.buf, segments_append T p.appended]
  · simp [afterRead, hu, h.buf, fragment_append T p.appended]
  · simp [afterRead, hu, h.buf, h.pos, segments_append T p.appended, Int.add_assoc]
  · simp [afterRead, h.err]
  · simp [afterRead, h.config]
  · simp [afterRead, h.filename]
  · simp only [File.unread, ho.1, ho.2, List.drop_length]
  · rw [ho.1, ho.2]

theorem appendedBy_cons (ev : Event) (evs : List Event) :
    appendedBy (ev :: evs) = ev.pass.appended ++ appendedBy evs := by
  simp [appendedBy]

theorem read_pos_mono (fuel : Nat) (ctx : Context) (v : loopState)
    (r : Option Error × loopState) (h : read fuel ctx v = .ok r) : v.s.pos ≤ r.2.s.pos := by
  induction fuel generalizing ctx v with
  | zero => simp [read] at h
  | succ fuel ih =>
    rw [read] at h
    simp only [ReadString] at h
    split_ifs at h
    all_goals first
      | (simp only [Except.ok.injEq] at h; subst h; simp)
      | (have hle := ih _ _ h; simp only [tailer.addPos] at hle; omega)

theorem readPass_pos_mono (p : PassInput) (v : loopState) (r : Option Error × loopState)
    (h : readPass p v = .ok r) : v.s.pos ≤ r.2.s.pos := by
  have := read_pos_mono _ _ _ r h
  simpa using this

theorem eventLoop_pos_mono (evs : List Event) (v v1 : loopState)
    (h : eventLoop evs v = .ok v1) : v.s.pos ≤ v1.s.pos := by
  induction evs generalizing v with
  | nil => simp only [eventLoop, Except.ok.injEq] at h; subst h; exact le_refl _
  | cons ev evs ih =>
    rw [eventLoop] at h
    cases htyp : ev.typ with
    | Unknown => simp [htyp] at h
    | Gone => simp only [htyp, Except.ok.injEq] at h; subst h; simp [tailer.setErr]
    | Truncated => simp only [htyp, Except.ok.injEq] at h; subst h; simp [tailer.setErr]
    | Appended =>
      simp only [htyp] at h
      cases hr : readPass ev.pass v with
      | error a => simp [hr] at h
      | ok r =>
        obtain ⟨e, v2⟩ := r
        have hm := readPass_pos_mono _ _ _ hr
        cases e with
        | some e =>
          simp only [hr, Except.ok.injEq] at h
          subst h
          simpa [tailer.setErr] using hm
        | none =>
          simp only [hr] at h
          exact le_trans hm (ih v2 h)

theorem tailed_events_append (s : tailer) (evs : List Event) (T : List Byte) (v : loopState)
    (h : Tailed s T v)
    (hev : ∀ ev ∈ evs, ev.typ = FileChangeEventType.Appended ∧ ev.pass.succeeds []) :
    ∃ v1, (∀ more, eventLoop (evs ++ more) v = eventLoop more v1) ∧
      Tailed s (T ++ appendedBy evs) v1 := by
  induction evs generalizing T v with
  | nil => exact ⟨v, fun _ => rfl, by simpa [appendedBy] using h⟩
  | cons ev evs ih =>
    obtain ⟨htyp, hp⟩ := hev ev (by simp)
    obtain ⟨v1, hv1, ht1⟩ := tailed_pass s T v ev.pass h hp
    obtain ⟨v2, hv2, ht2⟩ := ih (T ++ ev.pass.appended) v1 ht1
      (fun e he => hev e (List.mem_cons_of_mem _ he))
    refine ⟨v2, ?_, ?_⟩
    · intro more
      rw [List.cons_append, eventLoop]
      simp only [htyp, hv1]
      exact hv2 more
    · rw [appendedBy_cons, ← List.append_assoc]
      exact ht2

/-- A run during which the file only grows consumes its events to the end and leaves the
state that the bytes read determine; more events are then handled from that state. -/
theorem tailed_loop_append (s : tailer) (inp : TailInput)
    (hoff : s.file.offset ≤ s.file.content.length) (h : inp.appendsOnly s) :
    ∃ v, (∀ more, tailer.loop { inp with events := inp.events ++ more } s = eventLoop more v) ∧
      tailer.loop inp s = .ok v ∧ Tailed s (s.file.unread ++ inp.appended) v := by
  obtain ⟨h0, hw, hev⟩ := h
  obtain ⟨v0, hv0, ht0⟩ := tailed_first s inp.first hoff h0
  obtain ⟨v1, hv1, ht1⟩ := tailed_events_append s inp.events _ v0 ht0 hev
  have hmore : ∀ more, tailer.loop { inp with events := inp.events ++ more } s =
      eventLoop more v1 := by
    intro more
    unfold tailer.loop
    simp only [hv0, hw]
    exact hv1 more
  refine ⟨v1, hmore, ?_, ?_⟩
  · have := hmore []
    simpa [eventLoop] using this
  · simpa [TailInput.appended, List.append_assoc] using ht1

theorem appendRun_appendsOnly (chunks : List (List Byte)) (s : tailer) :
    (appendRun chunks).appendsOnly s := by
  refine ⟨⟨Or.inl rfl, ?_⟩, rfl, ?_⟩
  · intro n hn
    simp [appendRun, appendPass, background] at hn
  · intro ev hev
    simp only [appendRun, List.mem_map] at hev
    obtain ⟨c, _, rfl⟩ := hev
    refine ⟨rfl, Or.inl rfl, ?_⟩
    intro n hn
    simp [appendedEvent, appendPass, background] at hn

theorem segments_flatten_length (T : List Byte) :
    (segments T).flatten.length = T.length - (fragment T).length := by
  have := congrArg List.length (segments_flatten_append_fragment T)
  simp only [List.length_append] at this
  omega

/-! ## Construction of a Tailer -/

theorem startOffset_bounds (config : Config) (n : Nat) :
    0 ≤ (if config.Offset < 0 ∨ config.Offset > (n : Int) then (n : Int) else config.Offset) ∧
      (if config.Offset < 0 ∨ config.Offset > (n : Int) then (n : Int) else config.Offset) ≤ n := by
  split <;> omega

/-- What `newTailerFromFile` builds. -/
theorem newTailerFromFile_ok (f : File) (config : Config) (s : tailer)
    (h : newTailerFromFile f config = .ok s) :
    s.pos = (if config.Offset < 0 ∨ config.Offset > (f.content.length : Int)
      then (f.content.length : Int) else config.Offset) ∧
    s.file.offset = s.pos.toNat ∧ 0 ≤ s.pos ∧ s.pos ≤ (f.content.length : Int) ∧
    s.file.content = f.content ∧ s.err = none ∧ s.config = config ∧ s.filename = f.name := by
  have hb := startOffset_bounds config f.content.length
  unfold newTailerFromFile File.Stat at h
  cases hst : f.statErr with
  | some e => simp [hst] at h
  | none =>
    cases hsk : f.seekErr with
    | some e => simp [hst, File.Seek, hsk] at h
    | none =>
      simp only [hst, File.Seek, hsk, not_lt.mpr hb.1, if_false, Except.ok.injEq] at h
      subst h
      exact ⟨rfl, rfl, hb.1, hb.2, rfl, rfl, rfl, rfl⟩

theorem newTailerFromFile_returns (f : File) (config : Config) (h1 : f.statErr = none)
    (h2 : f.seekErr = none) : ∃ s, newTailerFromFile f config = .ok s := by
  have hb := startOffset_bounds config f.content.length
  unfold newTailerFromFile File.Stat File.Seek
  simp only [h1, h2, not_lt.mpr hb.1, if_false]
  exact ⟨_, rfl⟩

theorem newTailerFromFile_unread (f : File) (config : Config) (s : tailer)
    (h : newTailerFromFile f config = .ok s) :
    s.file.unread = f.content.drop s.pos.toNat ∧ s.file.offset ≤ s.file.content.length := by
  obtain ⟨_, h2, h3, h4, h5, _⟩ := newTailerFromFile_ok f config s h
  refine ⟨by simp [File.unread, h2, h5], ?_⟩
  rw [h2, h5]
  omega

/-- C5. For every configured offset and every file, a Tailer is built whenever `Stat` and `Seek`
succeed; it starts reading at the configured offset when that offset is between 0 and the size
of the file, and at the end of the file when the offset is negative or beyond the size; and its
initial `Pos()` is that effective offset. -/
theorem newTailerFromFile_start_offset (f : File) (config : Config) :
    (f.statErr = none → f.seekErr = none → ∃ s, newTailerFromFile f config = .ok s) ∧
    ∀ s, newTailerFromFile f config = .ok s →
      (0 ≤ config.Offset ∧ config.Offset ≤ (f.content.length : Int) →
        tailer.Pos (some s) = config.Offset ∧ (s.file.offset : Int) = config.Offset ∧
          s.file.unread = f.content.drop config.Offset.toNat) ∧
      (config.Offset < 0 ∨ config.Offset > (f.content.length : Int) →
        tailer.Pos (some s) = (f.content.length : Int) ∧
          s.file.offset = f.content.length ∧ s.file.unread = []) := by
  refine ⟨newTailerFromFile_returns f config, ?_⟩
  intro s hs
  obtain ⟨h1, h2, h3, h4, h5, _⟩ := newTailerFromFile_ok f config s hs
  obtain ⟨h6, _⟩ := newTailerFromFile_unread f config s hs
  constructor
  · intro hin
    have hn : ¬ (config.Offset < 0 ∨ config.Offset > (f.content.length : Int)) := by omega
    rw [if_neg hn] at h1
    refine ⟨h1, ?_, ?_⟩
    · rw [h2, h1]; omega
    · rw [h6, h1]
  · intro hout
    rw [if_pos hout] at h1
    refine ⟨h1, ?_, ?_⟩
    · rw [h2, h1]; simp
    · rw [h6, h1]; simp

theorem newTailerFromFile_start_offset_witness :
    (∃ s, newTailerFromFile (fileOf (bytes "content\n")) (withOffset 3) = .ok s ∧
      tailer.Pos (some s) = 3 ∧ s.file.unread = bytes "tent\n") ∧
    (∃ s, newTailerFromFile (fileOf (bytes "content\n")) (withOffset (-1)) = .ok s ∧
      tailer.Pos (some s) = 8 ∧ s.file.unread = []) ∧
    (∃ s, newTailerFromFile (fileOf (bytes "content\n")) (withOffset 9) = .ok s ∧
      tailer.Pos (some s) = 8 ∧ s.file.unread = []) := by
  refine ⟨?_, ?_, ?_⟩
  · obtain ⟨hex, hall⟩ := newTailerFromFile_start_offset (fileOf (bytes "content\n")) (withOffset 3)
    obtain ⟨s, hs⟩ := hex rfl rfl
    obtain ⟨h1, _, h3⟩ := (hall s hs).1 (by decide)
    exact ⟨s, hs, h1, h3⟩
  · obtain ⟨hex, hall⟩ :=
      newTailerFromFile_start_offset (fileOf (bytes "content\n")) (withOffset (-1))
    obtain ⟨s, hs⟩ := hex rfl rfl
    obtain ⟨h1, _, h3⟩ := (hall s hs).2 (by decide)
    exact ⟨s, hs, h1, h3⟩
  · obtain ⟨hex, hall⟩ := newTailerFromFile_start_offset (fileOf (bytes "content\n")) (withOffset 9)
    obtain ⟨s, hs⟩ := hex rfl rfl
    obtain ⟨h1, _, h3⟩ := (hall s hs).2 (by decide)
    exact ⟨s, hs, h1, h3⟩

/-! ## Terminator stripping -/

theorem DropCRLF_concat_crlf (s : List Byte) (x : Byte) (h : x = CR ∨ x = LF) :
    DropCRLF (s ++ [x]) = DropCRLF s := by
  unfold DropCRLF TrimRight
  apply List.rdropWhile_concat_pos
  rcases h with h | h <;> simp [h]

theorem DropCRLF_concat_other (s : List Byte) (x : Byte) (h1 : x ≠ CR) (h2 : x ≠ LF) :
    DropCRLF (s ++ [x]) = s ++ [x] := by
  unfold DropCRLF TrimRight
  apply List.rdropWhile_concat_neg
  simp [h1, h2]

theorem DropCRLF_nil : DropCRLF [] = [] := by
  simp [DropCRLF, TrimRight]

/-- `DropCRLF` removes a suffix made of CR and LF bytes and leaves no such byte at the end. -/
theorem DropCRLF_removes_suffix (s : List Byte) :
    ∃ t, s = DropCRLF s ++ t ∧ (∀ b ∈ t, b = CR ∨ b = LF) ∧
      ∀ b, (DropCRLF s).getLast? = some b → b ≠ CR ∧ b ≠ LF := by
  induction s using List.reverseRecOn with
  | nil => exact ⟨[], by simp [DropCRLF_nil]⟩
  | append_singleton s x ih =>
    by_cases h : x = CR ∨ x = LF
    · obtain ⟨t, h1, h2, h3⟩ := ih
      refine ⟨t ++ [x], ?_, ?_, ?_⟩
      · rw [DropCRLF_concat_crlf s x h, ← List.append_assoc, ← h1]
      · intro b hb
        rcases List.mem_append.mp hb with hb | hb
        · exact h2 b hb
        · simp at hb; rw [hb]; exact h
      · rw [DropCRLF_concat_crlf s x h]; exact h3
    · have h1 : x ≠ CR := fun e => h (Or.inl e)
      have h2 : x ≠ LF := fun e => h (Or.inr e)
      refine ⟨[], ?_, by simp, ?_⟩
      · rw [DropCRLF_concat_other s x h1 h2]; simp
      · rw [DropCRLF_concat_other s x h1 h2]
        intro b hb
        simp at hb
        rw [← hb]; exact ⟨h1, h2⟩

theorem DropCRLF_of_clean (body : List Byte)
    (h : ∀ b, body.getLast? = some b → b ≠ CR ∧ b ≠ LF) : DropCRLF body = body := by
  induction body using List.reverseRecOn with
  | nil => exact DropCRLF_nil
  | append_singleton s x _ =>
    have := h x (by simp)
    exact DropCRLF_concat_other s x this.1 this.2

/-- C4, as amended. `DropCRLF` removes every trailing CR and LF byte, not only one terminator:
each string is the result followed by a suffix made of CR and LF bytes only, and the result does
not end in CR or LF, so that a CR or LF followed by any other byte is kept. On a body that does
not end in CR or LF, followed by one CRLF, by one LF, or by nothing, the result is the body. -/
theorem DropCRLF_strips_all_trailing_crlf (s : List Byte) :
    (∃ t, s = DropCRLF s ++ t ∧ (∀ b ∈ t, b = CR ∨ b = LF) ∧
      ∀ b, (DropCRLF s).getLast? = some b → b ≠ CR ∧ b ≠ LF) ∧
    ((∀ b, s.getLast? = some b → b ≠ CR ∧ b ≠ LF) →
      DropCRLF (s ++ [CR, LF]) = s ∧ DropCRLF (s ++ [LF]) = s ∧ DropCRLF s = s) := by
  refine ⟨DropCRLF_removes_suffix s, fun h => ?_⟩
  have h0 := DropCRLF_of_clean s h
  refine ⟨?_, ?_, h0⟩
  · have : s ++ [CR, LF] = (s ++ [CR]) ++ [LF] := by simp
    rw [this, DropCRLF_concat_crlf _ _ (Or.inr rfl), DropCRLF_concat_crlf _ _ (Or.inl rfl), h0]
  · rw [DropCRLF_concat_crlf _ _ (Or.inr rfl), h0]

theorem DropCRLF_strips_all_trailing_crlf_witness :
    DropCRLF (bytes "a\rb" ++ [CR, LF]) = bytes "a\rb" ∧
      DropCRLF (bytes "a\rb" ++ [LF]) = bytes "a\rb" ∧ DropCRLF (bytes "a\rb") = bytes "a\rb" :=
  (DropCRLF_strips_all_trailing_crlf (bytes "a\rb")).2 (by decide)

/-- C4, as stated, fails: on "a\n\n" the code removes both line feeds where one terminator would
be removed, and on "a\r" it removes the carriage return where nothing would be removed. -/
theorem DropCRLF_not_one_terminator :
    DropCRLF (bytes "a\n\n") = bytes "a" ∧ stripTerminator (bytes "a\n\n") = bytes "a\n" ∧
      DropCRLF (bytes "a\n\n") ≠ stripTerminator (bytes "a\n\n") ∧
      DropCRLF (bytes "a\r") = bytes "a" ∧ stripTerminator (bytes "a\r") = bytes "a\r" ∧
      DropCRLF (bytes "a\r") ≠ stripTerminator (bytes "a\r") := by
  decide

/-! ## Lines and offset of a Tailer -/

/-- C1, as amended. For every start content and every run in which the file only grows, the
lines a Tailer sends are, in file order, the LF-terminated segments of the bytes that follow
the start offset, each stripped by `DropCRLF` of all its trailing CR and LF bytes; the bytes
after the last line feed are a fragment without line feed that is not sent; and the lines
depend only on the concatenation of the appended bytes, not on how they were split across
read passes. -/
theorem tailer_emits_lf_segments (f : File) (config : Config) (s : tailer) (inp : TailInput)
    (hs : newTailerFromFile f config = .ok s) (hinp : inp.appendsOnly s) :
    ∃ v, tailer.loop inp s = .ok v ∧
      v.resultC = (segments (f.content.drop s.pos.toNat ++ inp.appended)).map DropCRLF ∧
      (segments (f.content.drop s.pos.toNat ++ inp.appended)).flatten ++
          fragment (f.content.drop s.pos.toNat ++ inp.appended) =
        f.content.drop s.pos.toNat ++ inp.appended ∧
      (∀ l ∈ segments (f.content.drop s.pos.toNat ++ inp.appended),
        ∃ body, l = body ++ [LF] ∧ LF ∉ body) ∧
      LF ∉ fragment (f.content.drop s.pos.toNat ++ inp.appended) ∧
      ∀ inp2 : TailInput, inp2.appendsOnly s → inp2.appended = inp.appended →
        ∃ v2, tailer.loop inp2 s = .ok v2 ∧ v2.resultC = v.resultC := by
  obtain ⟨hu, hoff⟩ := newTailerFromFile_unread f config s hs
  obtain ⟨v, _, hv, ht⟩ := tailed_loop_append s inp hoff hinp
  rw [hu] at ht
  refine ⟨v, hv, ht.resultC, segments_flatten_append_fragment _, segment_shape _,
    not_mem_fragment _, ?_⟩
  intro inp2 hinp2 heq
  obtain ⟨v2, _, hv2, ht2⟩ := tailed_loop_append s inp2 hoff hinp2
  rw [hu, heq] at ht2
  exact ⟨v2, hv2, by rw [ht2.resultC, ht.resultC]⟩

theorem tailer_emits_lf_segments_witness :
    ∃ v, tailer.loop (appendRun exampleWrites) freshTailer = .ok v ∧
      v.resultC = [bytes "first", bytes "second", bytes "third"] := by
  obtain ⟨v, hv, hr, _⟩ := tailer_emits_lf_segments (fileOf []) (withOffset 0) freshTailer
    (appendRun exampleWrites) rfl (appendRun_appendsOnly _ _)
  refine ⟨v, hv, ?_⟩
  rw [hr]
  decide

/-- C1, as stated, fails: on a file that holds "a\r\r\n" the Tailer started at offset 0 sends
the line "a", while the LF-terminated segment with its terminator stripped is "a\r" (a
trailing CRLF removed) or "a\r\r" (the line feed removed). -/
theorem tailer_line_not_terminator_stripped :
    ((built (newTailerFromFile (fileOf (bytes "a\r\r\n")) (withOffset 0))).bind
        (fun s => sent (tailer.loop (appendRun []) s))) = some [bytes "a"] ∧
      (segments (bytes "a\r\r\n")).map stripTerminator = [bytes "a\r"] ∧
      (segments (bytes "a\r\r\n")).map List.dropLast = [bytes "a\r\r"] := by
  decide

/-- C2. After the read passes of every run in which the file only grows, `Pos()` is the start
offset plus the number of bytes from the start offset through the last line feed read so far;
the bytes after that line feed are the pending fragment held in `buf` and are not counted; and
whatever events follow, `Pos()` does not decrease. -/
theorem tailer_pos_counts_terminated_bytes (f : File) (config : Config) (s : tailer)
    (inp : TailInput) (hs : newTailerFromFile f config = .ok s) (hinp : inp.appendsOnly s) :
    ∃ v, tailer.loop inp s = .ok v ∧
      tailer.Pos (some v.s) = tailer.Pos (some s) +
        (((f.content.drop s.pos.toNat ++ inp.appended).length -
          (fragment (f.content.drop s.pos.toNat ++ inp.appended)).length : Nat) : Int) ∧
      v.buf = fragment (f.content.drop s.pos.toNat ++ inp.appended) ∧
      LF ∉ fragment (f.content.drop s.pos.toNat ++ inp.appended) ∧
      (segments (f.content.drop s.pos.toNat ++ inp.appended)).flatten ++
          fragment (f.content.drop s.pos.toNat ++ inp.appended) =
        f.content.drop s.pos.toNat ++ inp.appended ∧
      tailer.Pos (some s) ≤ tailer.Pos (some v.s) ∧
      ∀ (more : List Event) (v2 : loopState),
        tailer.loop { inp with events := inp.events ++ more } s = .ok v2 →
          tailer.Pos (some v.s) ≤ tailer.Pos (some v2.s) := by
  obtain ⟨hu, hoff⟩ := newTailerFromFile_unread f config s hs
  obtain ⟨v, hmore, hv, ht⟩ := tailed_loop_append s inp hoff hinp
  rw [hu] at ht
  have hpos := ht.pos
  rw [segments_flatten_length] at hpos
  refine ⟨v, hv, hpos, ht.buf, not_mem_fragment _, segments_flatten_append_fragment _, ?_, ?_⟩
  · simp only [tailer.Pos, hpos]; omega
  · intro more v2 h2
    rw [hmore more] at h2
    exact eventLoop_pos_mono more v v2 h2

theorem tailer_pos_counts_terminated_bytes_witness :
    ∃ v, tailer.loop (appendRun exampleWrites) freshTailer = .ok v ∧
      tailer.Pos (some v.s) = 19 ∧ v.buf = bytes "fourth" := by
  obtain ⟨v, hv, hp, hb, _⟩ := tailer_pos_counts_terminated_bytes (fileOf []) (withOffset 0)
    freshTailer (appendRun exampleWrites) rfl (appendRun_appendsOnly _ _)
  refine ⟨v, hv, ?_, ?_⟩
  · rw [hp]; decide
  · rw [hb]; decide

theorem newTailerFromFile_pos_zero (f : File) (config : Config) (s : tailer)
    (hs : newTailerFromFile f config = .ok s) (h0 : config.Offset = 0) : s.pos = 0 := by
  obtain ⟨h1, _⟩ := newTailerFromFile_ok f config s hs
  rw [h1, h0]
  have : ¬ ((0 : Int) < 0 ∨ (0 : Int) > (f.content.length : Int)) := by omega
  rw [if_neg this]

/-- C3. Resuming is gap-free and duplicate-free. A first Tailer started at offset 0 reads the
content `A` and reports `Pos()`; a second Tailer is started with that offset on the file that
now holds `A` followed by more bytes, `A ++ B` once its run is over. Then the lines of the
first followed by the lines of the second are the lines that one Tailer started at offset 0
sends on `A ++ B`, however the bytes are split across the read passes of the three. -/
theorem resumed_tailer_continues (A B : List Byte) (f1 f2 f3 : File) (c1 c2 c3 : Config)
    (s1 s2 s3 : tailer) (inp1 inp2 inp3 : TailInput) (v1 : loopState)
    (hs1 : newTailerFromFile f1 c1 = .ok s1) (hc1 : c1.Offset = 0)
    (hin1 : inp1.appendsOnly s1) (hA : f1.content ++ inp1.appended = A)
    (hv1 : tailer.loop inp1 s1 = .ok v1)
    (hs2 : newTailerFromFile f2 c2 = .ok s2) (hc2 : c2.Offset = tailer.Pos (some v1.s))
    (hin2 : inp2.appendsOnly s2) (hAB2 : f2.content ++ inp2.appended = A ++ B)
    (hlen : A.length ≤ f2.content.length)
    (hs3 : newTailerFromFile f3 c3 = .ok s3) (hc3 : c3.Offset = 0)
    (hin3 : inp3.appendsOnly s3) (hAB3 : f3.content ++ inp3.appended = A ++ B) :
    ∃ v2 v3, tailer.loop inp2 s2 = .ok v2 ∧ tailer.loop inp3 s3 = .ok v3 ∧
      v1.resultC ++ v2.resultC = v3.resultC := by
  -- the first Tailer
  obtain ⟨hu1, hoff1⟩ := newTailerFromFile_unread f1 c1 s1 hs1
  have hp1 := newTailerFromFile_pos_zero f1 c1 s1 hs1 hc1
  obtain ⟨w1, _, hw1, ht1⟩ := tailed_loop_append s1 inp1 hoff1 hin1
  have hvw : v1 = w1 := by
    rw [hv1] at hw1
    exact Except.ok.inj hw1
  subst hvw
  rw [hu1, hp1] at ht1
  simp only [Int.toNat_zero, List.drop_zero, hA] at ht1
  have hpos1 : v1.s.pos = ((segments A).flatten.length : Int) := by
    have := ht1.pos
    rw [hp1] at this
    simpa using this
  -- the second Tailer
  obtain ⟨hu2, hoff2⟩ := newTailerFromFile_unread f2 c2 s2 hs2
  obtain ⟨h2pos, _⟩ := newTailerFromFile_ok f2 c2 s2 hs2
  have hple : (segments A).flatten.length ≤ A.length := by
    rw [segments_flatten_length]; omega
  have hs2pos : s2.pos = ((segments A).flatten.length : Int) := by
    rw [h2pos, hc2]
    simp only [tailer.Pos, hpos1]
    have : ¬ ((((segments A).flatten.length : Nat) : Int) < 0 ∨
        (((segments A).flatten.length : Nat) : Int) > (f2.content.length : Int)) := by omega
    rw [if_neg this]
  obtain ⟨v2, _, hv2, ht2⟩ := tailed_loop_append s2 inp2 hoff2 hin2
  have hT2 : s2.file.unread ++ inp2.appended = fragment A ++ B := by
    rw [hu2, hs2pos, Int.toNat_ofNat]
    have h1 : List.drop (segments A).flatten.length f2.content ++ inp2.appended =
        List.drop (segments A).flatten.length (f2.content ++ inp2.appended) := by
      rw [List.drop_append_of_le_length (by omega)]
    have h2 : A ++ B = (segments A).flatten ++ (fragment A ++ B) := by
      rw [← List.append_assoc, segments_flatten_append_fragment]
    rw [h1, hAB2, h2]
    exact List.drop_left _ _
  rw [hT2] at ht2
  -- the single Tailer
  obtain ⟨hu3, hoff3⟩ := newTailerFromFile_unread f3 c3 s3 hs3
  have hp3 := newTailerFromFile_pos_zero f3 c3 s3 hs3 hc3
  obtain ⟨v3, _, hv3, ht3⟩ := tailed_loop_append s3 inp3 hoff3 hin3
  rw [hu3, hp3] at ht3
  simp only [Int.toNat_zero, List.drop_zero, hAB3] at ht3
  refine ⟨v2, v3, hv2, hv3, ?_⟩
  rw [ht1.resultC, ht2.resultC, ht3.resultC, segments_append A B, List.map_append]

theorem resumed_tailer_continues_witness :
    ∃ v1 v2 v3, tailer.loop (appendRun [bytes "before\n"]) freshTailer = .ok v1 ∧
      newTailerFromFile (fileOf (bytes "before\n")) (withOffset 7) =
        .ok { freshTailer with
          file := { fileOf (bytes "before\n") with offset := 7 }, config := withOffset 7,
          pos := 7 } ∧
      tailer.loop (appendRun [bytes "after\n"])
        { freshTailer with
          file := { fileOf (bytes "before\n") with offset := 7 }, config := withOffset 7,
          pos := 7 } = .ok v2 ∧
      tailer.loop (appendRun [bytes "before\n", bytes "after\n"]) freshTailer = .ok v3 ∧
      v1.resultC ++ v2.resultC = v3.resultC ∧
      v3.resultC = [bytes "before", bytes "after"] := by
  obtain ⟨v1, _, hv1, ht1⟩ := tailed_loop_append freshTailer (appendRun [bytes "before\n"])
    (by decide) (appendRun_appendsOnly _ _)
  have hp1 : tailer.Pos (some v1.s) = 7 := by
    simp only [tailer.Pos, ht1.pos]
    decide
  obtain ⟨v2, v3, hv2, hv3, h⟩ := resumed_tailer_continues (bytes "before\n") (bytes "after\n")
    (fileOf []) (fileOf (bytes "before\n")) (fileOf [])
    (withOffset 0) (withOffset 7) (withOffset 0) freshTailer
    { freshTailer with
      file := { fileOf (bytes "before\n") with offset := 7 }, config := withOffset 7, pos := 7 }
    freshTailer (appendRun [bytes "before\n"]) (appendRun [bytes "after\n"])
    (appendRun [bytes "before\n", bytes "after\n"]) v1
    rfl rfl (appendRun_appendsOnly _ _) (by decide) hv1
    rfl (by rw [hp1]; decide) (appendRun_appendsOnly _ _) (by decide) (by decide)
    rfl rfl (appendRun_appendsOnly _ _) (by decide)
  obtain ⟨w3, _, hw3, ht3⟩ := tailed_loop_append freshTailer
    (appendRun [bytes "before\n", bytes "after\n"]) (by decide) (appendRun_appendsOnly _ _)
  have h33 : v3 = w3 := by
    rw [hv3] at hw3
    exact Except.ok.inj hw3
  subst h33
  refine ⟨v1, v2, v3, hv1, rfl, hv2, hv3, h, ?_⟩
  rw [ht3.resultC]
  decide

/-! ## Termination of a Tailer -/

theorem read_done (fuel : Nat) (ctx : Context) (v : loopState) (hd : ctx.Done = true) :
    read (fuel + 1) ctx v = .ok (some ctx.err, v) := by
  rw [read]; simp [hd]

/-- The iteration of `read` that reaches the end of the file, whatever the read reports. -/
theorem read_end (fuel : Nat) (ctx : Context) (v : loopState) (hd : ctx.Done = false)
    (hx : (readUntil LF v.s.file.unread).2 = false) :
    read (fuel + 1) ctx v =
      if v.s.file.readErr.getD Error.EOF ≠ Error.EOF then
        .ok (some (v.s.file.readErr.getD Error.EOF),
          { v with s := { v.s with
              file := { v.s.file with offset := v.s.file.offset + v.s.file.unread.length } } })
      else
        .ok (none,
          { v with
            s := { v.s with
              file := { v.s.file with offset := v.s.file.offset + v.s.file.unread.length } }
            buf := v.buf ++ v.s.file.unread }) := by
  rw [read]
  by_cases he : v.s.file.readErr.getD Error.EOF = Error.EOF
  · simp [hd, ReadString, hx, he, (readUntil_false _ hx).1]
  · simp [hd, ReadString, hx, he, (readUntil_false _ hx).1]

/-- The closure `read` returns: its loop ends before the bound given by `readPass`. -/
theorem read_returns (fuel : Nat) (ctx : Context) (v : loopState)
    (hfuel : v.s.file.unread.length < fuel) : ∃ r, read fuel ctx v = .ok r := by
  induction fuel generalizing ctx v with
  | zero => exact absurd hfuel (Nat.not_lt_zero _)
  | succ fuel ih =>
    cases hd : ctx.Done with
    | true => exact ⟨_, read_done fuel ctx v hd⟩
    | false =>
      cases hx : (readUntil LF v.s.file.unread).2 with
      | false =>
        rw [read_end fuel ctx v hd hx]
        split <;> exact ⟨_, rfl⟩
      | true =>
        rw [read_line fuel ctx v hd hx]
        apply ih
        have hU := congrArg List.length (readUntil_true _ hx)
        have hpos := readUntil_length_pos _ hx
        simp only [unread_advance, List.length_append] at hU ⊢
        omega

theorem readPass_returns (p : PassInput) (v : loopState) : ∃ r, readPass p v = .ok r :=
  read_returns _ _ _ (Nat.lt_succ_self _)

/-- What `read` leaves untouched, and where a non-nil error comes from: the context found done,
or the read at the end of the file. -/
theorem read_error_origin (fuel : Nat) (ctx : Context) (v : loopState)
    (r : Option Error × loopState) (h : read fuel ctx v = .ok r) :
    r.2.s.err = v.s.err ∧
      ∀ e, r.1 = some e →
        (e = ctx.err ∧ ctx.doneAfter.isSome) ∨ (v.s.file.readErr = some e ∧ e ≠ Error.EOF) := by
  induction fuel generalizing ctx v with
  | zero => simp [read] at h
  | succ fuel ih =>
    cases hd : ctx.Done with
    | true =>
      rw [read_done fuel ctx v hd] at h
      simp only [Except.ok.injEq] at h
      subst h
      refine ⟨rfl, fun e he => Or.inl ⟨?_, ?_⟩⟩
      · simpa using he.symm
      · simp only [Context.Done, beq_iff_eq] at hd
        simp [hd]
    | false =>
      cases hx : (readUntil LF v.s.file.unread).2 with
      | false =>
        rw [read_end fuel ctx v hd hx] at h
        split at h
        · rename_i hne
          simp only [Except.ok.injEq] at h
          subst h
          refine ⟨rfl, fun e he => Or.inr ?_⟩
          simp only [Option.some.injEq] at he
          subst he
          cases hr : v.s.file.readErr with
          | none => simp [hr] at hne
          | some e1 => simpa [hr] using hne
        · simp only [Except.ok.injEq] at h
          subst h
          exact ⟨rfl, fun e he => by simp at he⟩
      | true =>
        rw [read_line fuel ctx v hd hx] at h
        obtain ⟨h1, h2⟩ := ih _ _ h
        refine ⟨h1, fun e he => ?_⟩
        rcases h2 e he with ⟨ha, hb⟩ | hb
        · left
          refine ⟨ha, ?_⟩
          simp only [Context.next] at hb
          cases hda : ctx.doneAfter with
          | none => simp [hda] at hb
          | some n => rfl
        · right
          exact hb

theorem readPass_error_origin (p : PassInput) (v : loopState)
    (r : Option Error × loopState) (h : readPass p v = .ok r) :
    r.2.s.err = v.s.err ∧
      ∀ e, r.1 = some e →
        (e = p.ctx.err ∧ p.ctx.doneAfter.isSome) ∨ (p.readErr = some e ∧ e ≠ Error.EOF) := by
  have := read_error_origin _ _ _ r h
  simpa [File.grow] using this

theorem read_nil_only_if (fuel : Nat) (ctx : Context) (v v1 : loopState)
    (h : read fuel ctx v = .ok (none, v1)) :
    (v.s.file.readErr = none ∨ v.s.file.readErr = some Error.EOF) ∧
      ∀ n ∈ ctx.doneAfter, v.s.file.unread.count LF < n := by
  induction fuel generalizing ctx v with
  | zero => simp [read] at h
  | succ fuel ih =>
    cases hd : ctx.Done with
    | true => rw [read_done fuel ctx v hd] at h; simp at h
    | false =>
      have hne : ctx.doneAfter ≠ some 0 := by
        simpa [Context.Done] using hd
      cases hx : (readUntil LF v.s.file.unread).2 with
      | false =>
        rw [read_end fuel ctx v hd hx] at h
        split at h
        · simp at h
        · rename_i he
          refine ⟨?_, ?_⟩
          · cases hr : v.s.file.readErr with
            | none => exact Or.inl rfl
            | some e =>
              right
              simpa [hr] using he
          · intro n hn
            have hc : v.s.file.unread.count LF = 0 :=
              List.count_eq_zero_of_not_mem (readUntil_false _ hx).2
            rw [hc]
            cases n with
            | zero => exact absurd hn hne
            | succ k => exact Nat.succ_pos k
      | true =>
        rw [read_line fuel ctx v hd hx] at h
        obtain ⟨h1, h2⟩ := ih _ _ h
        refine ⟨h1, ?_⟩
        intro n hn
        have hcnt := count_readUntil_true _ hx
        cases n with
        | zero => exact absurd hn hne
        | succ k =>
          have hk : k ∈ ctx.next.doneAfter := by
            have hn1 : ctx.doneAfter = some (k + 1) := hn
            simp [Context.next, hn1]
          have := h2 k hk
          simp only [unread_advance] at this
          omega

/-- The predicate `succeeds` is exact: a read pass returns a nil error if and only if the read
at the end of the file reports end of file and the context is not found done at any poll. -/
theorem readPass_nil_iff_succeeds (p : PassInput) (v : loopState) (hbuf : LF ∉ v.buf)
    (hoff : v.s.file.offset ≤ v.s.file.content.length) :
    (∃ v1, readPass p v = .ok (none, v1)) ↔ p.succeeds v.s.file.unread := by
  constructor
  · rintro ⟨v1, h⟩
    obtain ⟨h1, h2⟩ := read_nil_only_if _ _ _ _ h
    refine ⟨by simpa [File.grow] using h1, ?_⟩
    intro n hn
    have := h2 n hn
    rwa [unread_grow _ _ hoff] at this
  · intro hp
    exact ⟨_, readPass_succeeds p v hbuf hoff hp⟩

theorem count_readUntil_false (U : List Byte) (h : (readUntil LF U).2 = false) :
    U.count LF = 0 :=
  List.count_eq_zero_of_not_mem (readUntil_false U h).2

theorem unread_advance_length_lt (v : loopState) (hx : (readUntil LF v.s.file.unread).2 = true) :
    (v.s.file.unread.drop (readUntil LF v.s.file.unread).1.length).length <
      v.s.file.unread.length := by
  have hU := congrArg List.length (readUntil_true _ hx)
  have hpos := readUntil_length_pos _ hx
  simp only [List.length_append] at hU
  omega

/-- A read pass that finds the context done returns the error of the context. -/
theorem read_found_done (fuel : Nat) (ctx : Context) (v : loopState)
    (hfuel : v.s.file.unread.length < fuel)
    (hdone : ∃ n ∈ ctx.doneAfter, n ≤ v.s.file.unread.count LF) :
    ∃ v1, read fuel ctx v = .ok (some ctx.err, v1) := by
  induction fuel generalizing ctx v with
  | zero => exact absurd hfuel (Nat.not_lt_zero _)
  | succ fuel ih =>
    obtain ⟨n, hn, hle⟩ := hdone
    have hn1 : ctx.doneAfter = some n := hn
    cases hd : ctx.Done with
    | true => exact ⟨v, read_done fuel ctx v hd⟩
    | false =>
      have hne : n ≠ 0 := by
        intro h0
        rw [h0] at hn1
        simp [Context.Done, hn1] at hd
      cases hx : (readUntil LF v.s.file.unread).2 with
      | false =>
        have := count_readUntil_false _ hx
        omega
      | true =>
        rw [read_line fuel ctx v hd hx]
        have hcnt := count_readUntil_true _ hx
        have hlt := unread_advance_length_lt v hx
        refine ih ctx.next _ ?_ ⟨n - 1, ?_, ?_⟩
        · simp only [unread_advance]; omega
        · simp [Context.next, hn1]
        · simp only [unread_advance]; omega

/-- A read pass that does not find the context done and whose read at the end of the file
fails returns the error of that read. -/
theorem read_read_fails (fuel : Nat) (ctx : Context) (v : loopState) (e : Error)
    (hfuel : v.s.file.unread.length < fuel)
    (hctx : ∀ n ∈ ctx.doneAfter, v.s.file.unread.count LF < n)
    (herr : v.s.file.readErr = some e) (hne : e ≠ Error.EOF) :
    ∃ v1, read fuel ctx v = .ok (some e, v1) := by
  induction fuel generalizing ctx v with
  | zero => exact absurd hfuel (Nat.not_lt_zero _)
  | succ fuel ih =>
    have hd : ctx.Done = false := by
      simp only [Context.Done, beq_eq_false_iff_ne, ne_eq]
      intro h0
      exact Nat.not_lt_zero _ (hctx 0 h0)
    cases hx : (readUntil LF v.s.file.unread).2 with
    | false =>
      rw [read_end fuel ctx v hd hx]
      simp [herr, hne]
    | true =>
      rw [read_line fuel ctx v hd hx]
      have hcnt := count_readUntil_true _ hx
      have hlt := unread_advance_length_lt v hx
      apply ih
      · simp only [unread_advance]; omega
      · intro n hn
        have hn0 : ctx.next.doneAfter = some n := hn
        simp only [unread_advance]
        cases hda : ctx.doneAfter with
        | none => simp [Context.next, hda] at hn0
        | some m =>
          have h1 := hctx m hda
          simp only [Context.next, hda, Option.map_some, Option.some.injEq] at hn0
          cases m with
          | zero => omega
          | succ k =>
            have hk : k = n := by simpa using hn0
            omega
      · simpa using herr

theorem failure_eq_none_iff (p : PassInput) (pending : List Byte) :
    p.failure pending = none ↔ p.succeeds pending := by
  unfold PassInput.failure PassInput.succeeds PassInput.foundDone
  constructor
  · intro h
    split_ifs at h with hfd
    refine ⟨?_, ?_⟩
    · cases hr : p.readErr with
      | none => exact Or.inl rfl
      | some e =>
        right
        simp only [hr] at h
        split_ifs at h with he
        rw [he]
    · intro n hn
      by_contra hlt
      exact hfd ⟨n, hn, by omega⟩
  · rintro ⟨hr, hctx⟩
    have hfd : ¬ ∃ n ∈ p.ctx.doneAfter, n ≤ (pending ++ p.appended).count LF := by
      rintro ⟨n, hn, hle⟩
      have := hctx n hn
      omega
    rw [if_neg hfd]
    rcases hr with hr | hr <;> simp [hr]

/-- The error a read pass returns is the one `failure` names. -/
theorem readPass_failure (p : PassInput) (v : loopState) (hbuf : LF ∉ v.buf)
    (hoff : v.s.file.offset ≤ v.s.file.content.length) :
    ∃ v1, readPass p v = .ok (p.failure v.s.file.unread, v1) := by
  by_cases hfd : p.foundDone v.s.file.unread
  · have hf : p.failure v.s.file.unread = some p.ctx.err := by
      simp [PassInput.failure, hfd]
    rw [hf]
    unfold readPass
    apply read_found_done _ _ _ (Nat.lt_succ_self _)
    simpa [PassInput.foundDone, unread_grow _ _ hoff] using hfd
  · cases hs : p.failure v.s.file.unread with
    | none =>
      exact ⟨_, readPass_succeeds p v hbuf hoff ((failure_eq_none_iff p _).mp hs)⟩
    | some e =>
      have hs1 := hs
      simp only [PassInput.failure, if_neg hfd] at hs1
      cases hr : p.readErr with
      | none => simp [hr] at hs1
      | some e1 =>
        simp only [hr] at hs1
        split_ifs at hs1 with he
        simp only [Option.some.injEq] at hs1
        subst hs1
        unfold readPass
        apply read_read_fails _ _ _ e1 (Nat.lt_succ_self _)
        · intro n hn
          by_contra hlt
          apply hfd
          refine ⟨n, hn, ?_⟩
          simp only [unread_grow _ _ hoff] at hlt
          omega
        · simp [File.grow, hr]
        · exact he

theorem eventLoop_appended (evs : List Event) (v : loopState)
    (hev : ∀ ev ∈ evs, ev.typ = FileChangeEventType.Appended) :
    ∃ v1, eventLoop evs v = .ok v1 ∧
      (v1.s.err = v.s.err ∨
        ∃ ev ∈ evs, ∃ e, v1.s.err = some e ∧
          ((e = ev.pass.ctx.err ∧ ev.pass.ctx.doneAfter.isSome) ∨
            (ev.pass.readErr = some e ∧ e ≠ Error.EOF))) := by
  induction evs generalizing v with
  | nil => exact ⟨v, rfl, Or.inl rfl⟩
  | cons ev evs ih =>
    have htyp := hev ev (by simp)
    obtain ⟨r, hr⟩ := readPass_returns ev.pass v
    obtain ⟨e, v2⟩ := r
    obtain ⟨h1, h2⟩ := readPass_error_origin _ _ _ hr
    cases e with
    | some e =>
      refine ⟨{ v2 with s := v2.s.setErr (some e) }, ?_, Or.inr ⟨ev, by simp, e, rfl, h2 e rfl⟩⟩
      rw [eventLoop]
      simp only [htyp, hr]
    | none =>
      obtain ⟨v3, hv3, h3⟩ := ih v2 (fun e he => hev e (List.mem_cons_of_mem _ he))
      refine ⟨v3, ?_, ?_⟩
      · rw [eventLoop]
        simp only [htyp, hr]
        exact hv3
      · rcases h3 with h3 | ⟨ev2, hm, e, he, ho⟩
        · left
          rw [h3]
          exact h1
        · exact Or.inr ⟨ev2, List.mem_cons_of_mem _ hm, e, he, ho⟩

/-- C6. In every run whose read passes succeed up to the first `Gone` or `Truncated` event, the
Tailer returns at that event with `Err()` equal to `ErrFileGone` or `ErrFileTruncated`
respectively; the lines sent are those of the read passes before the event, that is the lines
of the bytes read so far; and the events that follow change neither the lines, nor `Err()`, nor
`Pos()`. -/
theorem tailer_stops_at_terminal_event (f : File) (config : Config) (s : tailer)
    (inp : TailInput) (ev : Event) (post : List Event)
    (hs : newTailerFromFile f config = .ok s) (hinp : inp.appendsOnly s)
    (hev : ev.typ = FileChangeEventType.Gone ∨ ev.typ = FileChangeEventType.Truncated) :
    ∃ v v2, tailer.loop inp s = .ok v ∧
      tailer.loop { inp with events := inp.events ++ ev :: post } s = .ok v2 ∧
      (ev.typ = FileChangeEventType.Gone → tailer.Err (some v2.s) = some Error.ErrFileGone) ∧
      (ev.typ = FileChangeEventType.Truncated →
        tailer.Err (some v2.s) = some Error.ErrFileTruncated) ∧
      v2.resultC = v.resultC ∧
      v2.resultC = (segments (f.content.drop s.pos.toNat ++ inp.appended)).map DropCRLF ∧
      tailer.Pos (some v2.s) = tailer.Pos (some v.s) ∧
      ∀ post2, tailer.loop { inp with events := inp.events ++ ev :: post2 } s = .ok v2 := by
  obtain ⟨hu, hoff⟩ := newTailerFromFile_unread f config s hs
  obtain ⟨v, hmore, hv, ht⟩ := tailed_loop_append s inp hoff hinp
  rw [hu] at ht
  rcases hev with hg | htr
  · refine ⟨v, { v with s := v.s.setErr (some Error.ErrFileGone) }, hv, ?_, fun _ => rfl,
      fun h => ?_, rfl, ht.resultC, rfl, fun post2 => ?_⟩
    · rw [hmore, eventLoop]; simp only [hg]
    · rw [hg] at h; cases h
    · rw [hmore, eventLoop]; simp only [hg]
  · refine ⟨v, { v with s := v.s.setErr (some Error.ErrFileTruncated) }, hv, ?_,
      fun h => ?_, fun _ => rfl, rfl, ht.resultC, rfl, fun post2 => ?_⟩
    · rw [hmore, eventLoop]; simp only [htr]
    · rw [htr] at h; cases h
    · rw [hmore, eventLoop]; simp only [htr]

theorem tailer_stops_at_terminal_event_witness :
    ∃ v2, tailer.loop
        { appendRun [] with
          events := (appendRun []).events ++
            { typ := FileChangeEventType.Gone, pass := appendPass [] } ::
              [appendedEvent (bytes "late\n")] }
        { freshTailer with file := fileOf (bytes "removed\n") } = .ok v2 ∧
      tailer.Err (some v2.s) = some Error.ErrFileGone ∧ v2.resultC = [bytes "removed"] ∧
      tailer.Pos (some v2.s) = 8 := by
  obtain ⟨v, v2, hv, hv2, hg, _, h1, h2, h3, _⟩ := tailer_stops_at_terminal_event
    (fileOf (bytes "removed\n")) (withOffset 0)
    { freshTailer with file := fileOf (bytes "removed\n") } (appendRun [])
    { typ := FileChangeEventType.Gone, pass := appendPass [] } [appendedEvent (bytes "late\n")]
    rfl (appendRun_appendsOnly _ _) (Or.inl rfl)
  obtain ⟨w, _, hw, htw⟩ := tailed_loop_append
    { freshTailer with file := fileOf (bytes "removed\n") } (appendRun []) (by decide)
    (appendRun_appendsOnly _ _)
  have hvw : v = w := by
    rw [hv] at hw
    exact Except.ok.inj hw
  subst hvw
  refine ⟨v2, hv2, hg rfl, ?_, ?_⟩
  · rw [h2]; decide
  · rw [h3]
    simp only [tailer.Pos, htw.pos]
    decide

/-- C8. When the read passes of a Tailer all succeed and its events are `Appended` events only,
after which the event channel is closed, `Tail` returns with all the lines and `Err()` is
nil. -/
theorem tailer_err_nil_after_appends (f : File) (config : Config) (s : tailer)
    (inp : TailInput) (hs : newTailerFromFile f config = .ok s) (hinp : inp.appendsOnly s) :
    ∃ lines s1, tailer.Tail inp s = .ok (lines, s1) ∧ tailer.Err (some s1) = none ∧
      lines = (segments (f.content.drop s.pos.toNat ++ inp.appended)).map DropCRLF := by
  obtain ⟨hu, hoff⟩ := newTailerFromFile_unread f config s hs
  obtain ⟨_, _, _, _, _, herr, _⟩ := newTailerFromFile_ok f config s hs
  obtain ⟨v, _, hv, ht⟩ := tailed_loop_append s inp hoff hinp
  rw [hu] at ht
  refine ⟨v.resultC, v.s, ?_, ?_, ht.resultC⟩
  · simp [tailer.Tail, hv]
  · simp only [tailer.Err, ht.err, herr]

theorem tailer_err_nil_after_appends_witness :
    ∃ lines s1, tailer.Tail
        (appendRun [bytes "append1\n", bytes "app", bytes "end2\n"])
        { freshTailer with file := { fileOf (bytes "content\n") with offset := 0 } } =
          .ok (lines, s1) ∧
      tailer.Err (some s1) = none ∧ lines = [bytes "content", bytes "append1", bytes "append2"] := by
  obtain ⟨lines, s1, h1, h2, h3⟩ := tailer_err_nil_after_appends (fileOf (bytes "content\n"))
    (withOffset 0) { freshTailer with file := { fileOf (bytes "content\n") with offset := 0 } }
    (appendRun [bytes "append1\n", bytes "app", bytes "end2\n"]) rfl (appendRun_appendsOnly _ _)
  refine ⟨lines, s1, h1, h2, ?_⟩
  rw [h3]
  decide

theorem passesSucceed_nil_iff (l : List PassInput) :
    passesSucceed [] l ↔ ∀ q ∈ l, q.succeeds [] := by
  cases l with
  | nil => simp [passesSucceed]
  | cons p ps => simp [passesSucceed]

theorem failure_some (p : PassInput) (pending : List Byte) (e : Error)
    (h : p.failure pending = some e) :
    (p.foundDone pending ∧ e = p.ctx.err) ∨
      (¬ p.foundDone pending ∧ p.readErr = some e ∧ e ≠ Error.EOF) := by
  unfold PassInput.failure at h
  split_ifs at h with hfd
  · simp only [Option.some.injEq] at h
    exact Or.inl ⟨hfd, h.symm⟩
  · right
    cases hr : p.readErr with
    | none => simp [hr] at h
    | some e1 =>
      simp only [hr] at h
      split_ifs at h with he
      simp only [Option.some.injEq] at h
      subst h
      exact ⟨hfd, rfl, he⟩

/-- The pass that `firstFailure` names: the passes before it succeed and it fails. -/
theorem firstFailure_some (pending : List Byte) (ps : List PassInput) (e : Error)
    (h : firstFailure pending ps = some e) :
    ∃ pre p post, ps = pre ++ p :: post ∧ passesSucceed pending pre ∧
      p.failure (if pre = [] then pending else []) = some e := by
  induction ps generalizing pending with
  | nil => simp [firstFailure] at h
  | cons p ps ih =>
    rw [firstFailure] at h
    cases hp : p.failure pending with
    | some e1 =>
      simp only [hp, Option.some.injEq] at h
      subst h
      exact ⟨[], p, ps, rfl, trivial, by simpa using hp⟩
    | none =>
      simp only [hp] at h
      obtain ⟨pre, q, post, hps, hpre, hq⟩ := ih [] h
      refine ⟨p :: pre, q, post, by rw [hps]; rfl,
        ⟨(failure_eq_none_iff p pending).mp hp, (passesSucceed_nil_iff pre).mp hpre⟩, ?_⟩
      simpa using hq

theorem firstFailure_none (pending : List Byte) (ps : List PassInput)
    (h : passesSucceed pending ps) : firstFailure pending ps = none := by
  induction ps generalizing pending with
  | nil => rfl
  | cons p ps ih =>
    rw [firstFailure, (failure_eq_none_iff p pending).mpr h.1]
    exact ih [] ((passesSucceed_nil_iff ps).mpr h.2)

/-- The event loop on `Appended` events records the error of the first read pass that fails
and nothing else. -/
theorem eventLoop_firstFailure (s : tailer) (evs : List Event) (T : List Byte) (v : loopState)
    (h : Tailed s T v) (hev : ∀ ev ∈ evs, ev.typ = FileChangeEventType.Appended) :
    ∃ v1, eventLoop evs v = .ok v1 ∧
      v1.s.err = match firstFailure [] (evs.map (fun ev => ev.pass)) with
        | some e => some e
        | none => s.err := by
  induction evs generalizing T v with
  | nil => exact ⟨v, rfl, by simpa [firstFailure] using h.err⟩
  | cons ev evs ih =>
    have htyp := hev ev (by simp)
    have hbuf : LF ∉ v.buf := by rw [h.buf]; exact not_mem_fragment T
    obtain ⟨v1, hv1⟩ := readPass_failure ev.pass v hbuf h.offset
    rw [h.unread] at hv1
    cases hf : ev.pass.failure [] with
    | some e =>
      rw [hf] at hv1
      refine ⟨{ v1 with s := v1.s.setErr (some e) }, ?_, ?_⟩
      · rw [eventLoop]
        simp only [htyp, hv1]
      · simp [firstFailure, hf, tailer.setErr]
    | none =>
      obtain ⟨v2, hv2, ht2⟩ := tailed_pass s T v ev.pass h ((failure_eq_none_iff _ _).mp hf)
      obtain ⟨v3, hv3, he3⟩ := ih (T ++ ev.pass.appended) v2 ht2
        (fun e he => hev e (List.mem_cons_of_mem _ he))
      refine ⟨v3, ?_, ?_⟩
      · rw [eventLoop]
        simp only [htyp, hv2]
        exact hv3
      · simpa [firstFailure, hf] using he3

/-- C7, as amended. When the events of a Tailer are `Appended` events only and the event
channel is then closed, the Tailer returns without recording the cancellation that closed the
channel. `Err()` is the error of the first read pass that fails, and nil when every read pass
succeeds. When it is not nil, the passes before the failed one succeeded, and `Err()` is the
error of the context if the failed pass found the context done at one of its polls, and
otherwise the error of the read at the end of the file, the context not being found done in
that pass. -/
theorem tailer_err_when_events_end (f : File) (config : Config) (s : tailer)
    (inp : TailInput) (hs : newTailerFromFile f config = .ok s) (hw : inp.watchErr = none)
    (hev : ∀ ev ∈ inp.events, ev.typ = FileChangeEventType.Appended) :
    ∃ v, tailer.loop inp s = .ok v ∧
      tailer.Err (some v.s) = firstFailure s.file.unread inp.passes ∧
      (inp.appendsOnly s → tailer.Err (some v.s) = none) ∧
      (passesSucceed s.file.unread inp.passes → tailer.Err (some v.s) = none) ∧
      ∀ e, tailer.Err (some v.s) = some e →
        ∃ pre p post, inp.passes = pre ++ p :: post ∧ passesSucceed s.file.unread pre ∧
          ((p.foundDone (if pre = [] then s.file.unread else []) ∧ e = p.ctx.err) ∨
            (¬ p.foundDone (if pre = [] then s.file.unread else []) ∧
              p.readErr = some e ∧ e ≠ Error.EOF)) := by
  obtain ⟨hu, hoff⟩ := newTailerFromFile_unread f config s hs
  obtain ⟨_, _, _, _, _, herr, _⟩ := newTailerFromFile_ok f config s hs
  have hErr : ∃ v, tailer.loop inp s = .ok v ∧
      tailer.Err (some v.s) = firstFailure s.file.unread inp.passes := by
    obtain ⟨v0, hv0⟩ := readPass_failure inp.first { s := s, buf := [], resultC := [] }
      (by simp) hoff
    cases hf : inp.first.failure s.file.unread with
    | some e =>
      rw [hf] at hv0
      refine ⟨{ v0 with s := v0.s.setErr (some e) }, ?_, ?_⟩
      · unfold tailer.loop
        simp only [hv0]
      · simp [TailInput.passes, firstFailure, hf, tailer.Err, tailer.setErr]
    | none =>
      obtain ⟨v1, hv1, ht1⟩ := tailed_first s inp.first hoff ((failure_eq_none_iff _ _).mp hf)
      obtain ⟨v2, hv2, he2⟩ := eventLoop_firstFailure s inp.events _ v1 ht1 hev
      refine ⟨v2, ?_, ?_⟩
      · unfold tailer.loop
        simp only [hv1, hw]
        exact hv2
      · rw [herr] at he2
        simp only [TailInput.passes, firstFailure, hf, tailer.Err, he2]
        cases firstFailure [] (List.map (fun ev => ev.pass) inp.events) <;> rfl
  obtain ⟨v, hv, he⟩ := hErr
  have hnil : passesSucceed s.file.unread inp.passes → tailer.Err (some v.s) = none := by
    intro hp
    rw [he]
    exact firstFailure_none _ _ hp
  refine ⟨v, hv, he, ?_, hnil, ?_⟩
  · intro hin
    apply hnil
    refine ⟨hin.1, ?_⟩
    intro q hq
    simp only [List.mem_map] at hq
    obtain ⟨ev, hev1, rfl⟩ := hq
    exact (hin.2.2 ev hev1).2
  · intro e hee
    rw [he] at hee
    obtain ⟨pre, p, post, hps, hpre, hp⟩ := firstFailure_some _ _ e hee
    exact ⟨pre, p, post, hps, hpre, failure_some p _ e hp⟩

theorem tailer_err_when_events_end_witness :
    (∃ v, tailer.loop (appendRun [bytes "append\n"]) freshTailer = .ok v ∧
      tailer.Err (some v.s) = none) ∧
    (∃ v, tailer.loop readFailsLate freshTailer = .ok v ∧
      tailer.Err (some v.s) = some (Error.other "input/output error")) ∧
    (∃ v, tailer.loop cancelledWhileReading freshTailer = .ok v ∧
      tailer.Err (some v.s) = some Error.DeadlineExceeded) := by
  refine ⟨?_, ?_, ?_⟩
  · obtain ⟨v, hv, _, h1, _⟩ := tailer_err_when_events_end (fileOf []) (withOffset 0)
      freshTailer (appendRun [bytes "append\n"]) rfl rfl (by decide)
    exact ⟨v, hv, h1 (appendRun_appendsOnly _ _)⟩
  · obtain ⟨v, hv, h0, _⟩ := tailer_err_when_events_end (fileOf []) (withOffset 0)
      freshTailer readFailsLate rfl rfl (by decide)
    refine ⟨v, hv, ?_⟩
    rw [h0]
    decide
  · obtain ⟨v, hv, h0, _⟩ := tailer_err_when_events_end (fileOf []) (withOffset 0)
      freshTailer cancelledWhileReading rfl rfl (by decide)
    refine ⟨v, hv, ?_⟩
    rw [h0]
    decide

/-- C7, as stated, fails: the Tailer on an empty file receives one `Appended` event, reads
"append\n", and the event channel is closed by the cancellation; `Err()` is then nil, not the
error of the context. -/
theorem tailer_err_not_cancellation :
    finalErr (tailer.Tail (appendRun [bytes "append\n"]) freshTailer) = some none ∧
      finalErr (tailer.Tail (appendRun [bytes "append\n"]) freshTailer) ≠
        some (some Error.Canceled) ∧
      finalErr (tailer.Tail (appendRun [bytes "append\n"]) freshTailer) ≠
        some (some Error.DeadlineExceeded) ∧
      newTailerFromFile (fileOf []) (withOffset 0) = .ok freshTailer := by
  refine ⟨by decide, by decide, by decide, rfl⟩

/-! ## The continuation wrapper -/

/-- One turn of the outer loop, once the file is opened and the Tailer has returned. -/
theorem iterate_opened (g : Generation) (v : continueState) (s1 : continueTailer)
    (t t1 : tailer) (lines : List (List Byte))
    (hopen : continueTailer.open g v.s = .ok (none, s1)) (ht : s1.tailer = some t)
    (hrun : tailer.Tail g.run t = .ok (lines, t1)) :
    continueTailer.iterate g v =
      if tailer.Err (some t1) = some Error.ErrFileGone then
        .ok (true, {
          s := { s1 with
            tailer := some t1
            config := { s1.config with Offset := toOffset s1.config.TailFromOriginWhenGone } }
          resultC := v.resultC ++ lines })
      else if tailer.Err (some t1) = some Error.ErrFileTruncated then
        .ok (true, {
          s := { s1 with
            tailer := some t1
            config := { s1.config with
              Offset := toOffset s1.config.TailFromOriginWhenTruncated } }
          resultC := v.resultC ++ lines })
      else
        .ok (false, {
          s := { s1 with tailer := some t1, err := tailer.Err (some t1) }
          resultC := v.resultC ++ lines }) := by
  unfold continueTailer.iterate
  simp only [hopen, ht, hrun, continueTailer.setErr]

theorem open_ok (g : Generation) (s s1 : continueTailer)
    (hopen : continueTailer.open g s = .ok (none, s1)) :
    ∃ f t, OpenFileLoop g.ctxErr g.opening = .ok (.ok f) ∧
      newTailerFromFile f s.config = .ok t ∧ s1 = { s with tailer := some t } := by
  unfold continueTailer.open at hopen
  split at hopen
  · simp at hopen
  · simp at hopen
  · rename_i f hf
    split at hopen
    · simp at hopen
    · rename_i t ht
      simp only [Except.ok.injEq, Prod.mk.injEq, true_and] at hopen
      exact ⟨f, t, hf, ht, hopen.symm⟩

theorem open_of_opened (g : Generation) (s : continueTailer) (f : File) (t : tailer)
    (hf : OpenFileLoop g.ctxErr g.opening = .ok (.ok f))
    (ht : newTailerFromFile f s.config = .ok t) :
    continueTailer.open g s = .ok (none, { s with tailer := some t }) := by
  unfold continueTailer.open
  simp only [hf, ht]

theorem loop_goes_on (g : Generation) (v v1 : continueState)
    (h : continueTailer.iterate g v = .ok (true, v1)) (rest : List Generation) :
    continueTailer.loop (g :: rest) v = continueTailer.loop rest v1 := by
  rw [continueTailer.loop]
  simp only [h]

theorem loop_stops_at (g : Generation) (v v1 : continueState)
    (h : continueTailer.iterate g v = .ok (false, v1)) (rest : List Generation) :
    continueTailer.loop (g :: rest) v = .ok v1 := by
  rw [continueTailer.loop]
  simp only [h]

/-- A turn of the outer loop adds lines to those already sent. -/
theorem iterate_resultC (g : Generation) (v v1 : continueState) (b : Bool)
    (h : continueTailer.iterate g v = .ok (b, v1)) :
    ∃ extra, v1.resultC = v.resultC ++ extra := by
  cases hopen : continueTailer.open g v.s with
  | error a => simp [continueTailer.iterate, hopen] at h
  | ok r =>
    obtain ⟨e, s1⟩ := r
    cases e with
    | some e =>
      simp only [continueTailer.iterate, hopen, Except.ok.injEq, Prod.mk.injEq] at h
      exact ⟨[], by rw [← h.2]; simp⟩
    | none =>
      obtain ⟨f0, t0, _, _, hs1⟩ := open_ok g v.s s1 hopen
      have ht : s1.tailer = some t0 := by rw [hs1]
      cases hrun : tailer.Tail g.run t0 with
      | error a => simp [continueTailer.iterate, hopen, ht, hrun] at h
      | ok r =>
        obtain ⟨lines, t1⟩ := r
        rw [iterate_opened g v s1 t0 t1 lines hopen ht hrun] at h
        split_ifs at h
        all_goals
          simp only [Except.ok.injEq, Prod.mk.injEq] at h
          exact ⟨lines, by rw [← h.2]⟩

/-- The outer loop only adds lines to those already sent. -/
theorem loop_resultC (gs : List Generation) (v v1 : continueState)
    (h : continueTailer.loop gs v = .ok v1) : ∃ extra, v1.resultC = v.resultC ++ extra := by
  induction gs generalizing v with
  | nil => simp [continueTailer.loop] at h
  | cons g gs ih =>
    rw [continueTailer.loop] at h
    cases hit : continueTailer.iterate g v with
    | error a => simp [hit] at h
    | ok r =>
      obtain ⟨b, v2⟩ := r
      obtain ⟨x1, hx1⟩ := iterate_resultC g v v2 b hit
      cases b with
      | true =>
        simp only [hit] at h
        obtain ⟨x2, hx2⟩ := ih v2 h
        exact ⟨x1 ++ x2, by rw [hx2, hx1, List.append_assoc]⟩
      | false =>
        simp only [hit, Except.ok.injEq] at h
        subst h
        exact ⟨x1, hx1⟩

/-- The turn that follows: the file that `OpenFileLoop` returns is given to
`newTailerFromFile` with the configuration left by the turn before, the Tailer built runs,
and the outer loop returns when that Tailer ends with a condition that is not recoverable. -/
theorem loop_second_turn (g g2 : Generation) (v v1 : continueState) (f : File)
    (t2 t3 : tailer) (lines2 : List (List Byte)) (rest : List Generation)
    (h1 : continueTailer.iterate g v = .ok (true, v1))
    (hf : OpenFileLoop g2.ctxErr g2.opening = .ok (.ok f))
    (ht2 : newTailerFromFile f v1.s.config = .ok t2)
    (hrun : tailer.Tail g2.run t2 = .ok (lines2, t3))
    (hg : tailer.Err (some t3) ≠ some Error.ErrFileGone)
    (htr : tailer.Err (some t3) ≠ some Error.ErrFileTruncated) :
    continueTailer.loop (g :: g2 :: rest) v =
      .ok { s := { v1.s with tailer := some t3, err := tailer.Err (some t3) }
            resultC := v1.resultC ++ lines2 } := by
  rw [loop_goes_on g v v1 h1]
  apply loop_stops_at
  rw [iterate_opened g2 v1 { v1.s with tailer := some t2 } t2 t3 lines2
    (open_of_opened g2 v1.s f t2 hf ht2) rfl hrun, if_neg hg, if_neg htr]

/-- C9. When the inner Tailer returns with `ErrFileGone`, the outer loop goes on with the
offset seed 0 if `TailFromOriginWhenGone` is set and -1 otherwise; when it returns with
`ErrFileTruncated`, with the seed 0 if `TailFromOriginWhenTruncated` is set and -1 otherwise.
The rest of the configuration is kept, so the seed is a function of its own flag alone. In
both cases the loop runs a further turn in which a new Tailer is built with that seed on the
file that `OpenFileLoop` returns: that Tailer starts at offset 0 when the flag is set and at
the end of the file otherwise, it is the one that runs, and when it ends with a condition
that is not recoverable the loop returns with it and with its lines after those sent
before. -/
theorem continueTailer_next_offset_seed (g : Generation) (v : continueState)
    (s1 : continueTailer) (t t1 : tailer) (lines : List (List Byte))
    (hopen : continueTailer.open g v.s = .ok (none, s1)) (ht : s1.tailer = some t)
    (hrun : tailer.Tail g.run t = .ok (lines, t1)) :
    (tailer.Err (some t1) = some Error.ErrFileGone →
      ∃ v1, continueTailer.iterate g v = .ok (true, v1) ∧
        v1.s.config = { v.s.config with
          Offset := if v.s.config.TailFromOriginWhenGone then 0 else -1 } ∧
        (∀ gs, continueTailer.loop (g :: gs) v = continueTailer.loop gs v1) ∧
        (∀ (g2 : Generation) (f : File) (t2 : tailer),
          OpenFileLoop g2.ctxErr g2.opening = .ok (.ok f) →
          newTailerFromFile f { v.s.config with
            Offset := if v.s.config.TailFromOriginWhenGone then 0 else -1 } = .ok t2 →
          continueTailer.open g2 v1.s = .ok (none, { v1.s with tailer := some t2 })) ∧
        ∀ (g2 : Generation) (f : File) (t2 t3 : tailer) (lines2 : List (List Byte))
          (rest : List Generation),
          OpenFileLoop g2.ctxErr g2.opening = .ok (.ok f) →
          newTailerFromFile f { v.s.config with
            Offset := if v.s.config.TailFromOriginWhenGone then 0 else -1 } = .ok t2 →
          tailer.Tail g2.run t2 = .ok (lines2, t3) →
          tailer.Err (some t3) ≠ some Error.ErrFileGone →
          tailer.Err (some t3) ≠ some Error.ErrFileTruncated →
          tailer.Pos (some t2) =
            (if v.s.config.TailFromOriginWhenGone then 0 else (f.content.length : Int)) ∧
          continueTailer.loop (g :: g2 :: rest) v =
            .ok { s := { v1.s with tailer := some t3, err := tailer.Err (some t3) }
                  resultC := v.resultC ++ lines ++ lines2 }) ∧
    (tailer.Err (some t1) = some Error.ErrFileTruncated →
      ∃ v1, continueTailer.iterate g v = .ok (true, v1) ∧
        v1.s.config = { v.s.config with
          Offset := if v.s.config.TailFromOriginWhenTruncated then 0 else -1 } ∧
        (∀ gs, continueTailer.loop (g :: gs) v = continueTailer.loop gs v1) ∧
        (∀ (g2 : Generation) (f : File) (t2 : tailer),
          OpenFileLoop g2.ctxErr g2.opening = .ok (.ok f) →
          newTailerFromFile f { v.s.config with
            Offset := if v.s.config.TailFromOriginWhenTruncated then 0 else -1 } = .ok t2 →
          continueTailer.open g2 v1.s = .ok (none, { v1.s with tailer := some t2 })) ∧
        ∀ (g2 : Generation) (f : File) (t2 t3 : tailer) (lines2 : List (List Byte))
          (rest : List Generation),
          OpenFileLoop g2.ctxErr g2.opening = .ok (.ok f) →
          newTailerFromFile f { v.s.config with
            Offset := if v.s.config.TailFromOriginWhenTruncated then 0 else -1 } = .ok t2 →
          tailer.Tail g2.run t2 = .ok (lines2, t3) →
          tailer.Err (some t3) ≠ some Error.ErrFileGone →
          tailer.Err (some t3) ≠ some Error.ErrFileTruncated →
          tailer.Pos (some t2) =
            (if v.s.config.TailFromOriginWhenTruncated then 0 else (f.content.length : Int)) ∧
          continueTailer.loop (g :: g2 :: rest) v =
            .ok { s := { v1.s with tailer := some t3, err := tailer.Err (some t3) }
                  resultC := v.resultC ++ lines ++ lines2 }) := by
  have hit := iterate_opened g v s1 t t1 lines hopen ht hrun
  obtain ⟨f0, t0, _, _, hs1⟩ := open_ok g v.s s1 hopen
  have hcfg : s1.config = v.s.config := by rw [hs1]
  have hstart : ∀ (flag : Bool) (f : File) (t2 : tailer),
      newTailerFromFile f { v.s.config with Offset := if flag then 0 else -1 } = .ok t2 →
      tailer.Pos (some t2) = (if flag then 0 else (f.content.length : Int)) := by
    intro flag f t2 h2
    obtain ⟨hp, _⟩ := newTailerFromFile_ok f _ t2 h2
    simp only [tailer.Pos, hp]
    cases flag <;> simp
  constructor
  · intro herr
    rw [if_pos herr] at hit
    refine ⟨_, hit, ?_, ?_, ?_, ?_⟩
    · simp only [hcfg, toOffset]
    · intro gs
      exact loop_goes_on g v _ hit gs
    · intro g2 f t2 hf ht2
      apply open_of_opened g2 _ f t2 hf
      simpa only [hcfg, toOffset] using ht2
    · intro g2 f t2 t3 lines2 rest hf ht2 hrun2 hg htr
      refine ⟨hstart _ f t2 ht2, ?_⟩
      exact loop_second_turn g g2 v _ f t2 t3 lines2 rest hit hf
        (by simpa only [hcfg, toOffset] using ht2) hrun2 hg htr
  · intro herr
    have hne : tailer.Err (some t1) ≠ some Error.ErrFileGone := by
      rw [herr]; decide
    rw [if_neg hne, if_pos herr] at hit
    refine ⟨_, hit, ?_, ?_, ?_, ?_⟩
    · simp only [hcfg, toOffset]
    · intro gs
      exact loop_goes_on g v _ hit gs
    · intro g2 f t2 hf ht2
      apply open_of_opened g2 _ f t2 hf
      simpa only [hcfg, toOffset] using ht2
    · intro g2 f t2 t3 lines2 rest hf ht2 hrun2 hg htr
      refine ⟨hstart _ f t2 ht2, ?_⟩
      exact loop_second_turn g g2 v _ f t2 t3 lines2 rest hit hf
        (by simpa only [hcfg, toOffset] using ht2) hrun2 hg htr

theorem continueTailer_next_offset_seed_witness :
    (∃ v1, continueTailer.iterate (endedBy FileChangeEventType.Gone)
        (NewContinueTailer "log" [WithOffset 0]).start = .ok (true, v1) ∧
      v1.s.config.Offset = -1) ∧
    (∃ v1, continueTailer.iterate (endedBy FileChangeEventType.Gone)
        (NewContinueTailer "log" [WithOffset 0, WithTailFromOriginWhenGone true]).start =
          .ok (true, v1) ∧
      v1.s.config.Offset = 0) ∧
    (∃ v1, continueTailer.iterate (endedBy FileChangeEventType.Truncated)
        (NewContinueTailer "log" [WithOffset 3]).start = .ok (true, v1) ∧
      v1.s.config.Offset = 0) ∧
    (∃ v1, continueTailer.iterate (endedBy FileChangeEventType.Truncated)
        (NewContinueTailer "log" [WithOffset 3, WithTailFromOriginWhenTruncated false]).start =
          .ok (true, v1) ∧
      v1.s.config.Offset = -1) ∧
    (∃ v2, continueTailer.loop [endedBy FileChangeEventType.Gone, reopened (bytes "nines\n")]
        (NewContinueTailer "log" [WithOffset 0, WithTailFromOriginWhenGone true]).start =
          .ok v2 ∧
      v2.s.config.Offset = 0 ∧ v2.resultC = [bytes "first", bytes "nines"] ∧
      continueTailer.Pos v2.s = .ok 6) ∧
    (∃ v2, continueTailer.loop [endedBy FileChangeEventType.Gone, reopened (bytes "nines\n")]
        (NewContinueTailer "log" [WithOffset 0]).start = .ok v2 ∧
      v2.s.config.Offset = -1 ∧ v2.resultC = [bytes "first"] ∧
      continueTailer.Pos v2.s = .ok 6) := by
  refine ⟨?_, ?_, ?_, ?_, ?_, ?_⟩
  · obtain ⟨v1, h1, h2, _⟩ := (continueTailer_next_offset_seed
      (endedBy FileChangeEventType.Gone) (NewContinueTailer "log" [WithOffset 0]).start
      _ _ _ _ rfl rfl rfl).1 rfl
    exact ⟨v1, h1, by rw [h2]; rfl⟩
  · obtain ⟨v1, h1, h2, _⟩ := (continueTailer_next_offset_seed
      (endedBy FileChangeEventType.Gone)
      (NewContinueTailer "log" [WithOffset 0, WithTailFromOriginWhenGone true]).start
      _ _ _ _ rfl rfl rfl).1 rfl
    exact ⟨v1, h1, by rw [h2]; rfl⟩
  · obtain ⟨v1, h1, h2, _⟩ := (continueTailer_next_offset_seed
      (endedBy FileChangeEventType.Truncated) (NewContinueTailer "log" [WithOffset 3]).start
      _ _ _ _ rfl rfl rfl).2 rfl
    exact ⟨v1, h1, by rw [h2]; rfl⟩
  · obtain ⟨v1, h1, h2, _⟩ := (continueTailer_next_offset_seed
      (endedBy FileChangeEventType.Truncated)
      (NewContinueTailer "log" [WithOffset 3, WithTailFromOriginWhenTruncated false]).start
      _ _ _ _ rfl rfl rfl).2 rfl
    exact ⟨v1, h1, by rw [h2]; rfl⟩
  · obtain ⟨v1, _, h2, _, _, h5⟩ := (continueTailer_next_offset_seed
      (endedBy FileChangeEventType.Gone)
      (NewContinueTailer "log" [WithOffset 0, WithTailFromOriginWhenGone true]).start
      _ _ _ _ rfl rfl rfl).1 rfl
    obtain ⟨_, h6⟩ := h5 (reopened (bytes "nines\n")) _ _ _ _ [] rfl rfl rfl
      (by decide) (by decide)
    refine ⟨_, h6, ?_, rfl, rfl⟩
    show v1.s.config.Offset = 0
    rw [h2]; rfl
  · obtain ⟨v1, _, h2, _, _, h5⟩ := (continueTailer_next_offset_seed
      (endedBy FileChangeEventType.Gone) (NewContinueTailer "log" [WithOffset 0]).start
      _ _ _ _ rfl rfl rfl).1 rfl
    obtain ⟨_, h6⟩ := h5 (reopened (bytes "nines\n")) _ _ _ _ [] rfl rfl rfl
      (by decide) (by decide)
    refine ⟨_, h6, ?_, rfl, rfl⟩
    show v1.s.config.Offset = -1
    rw [h2]; rfl

/-- A turn of the outer loop that says to go on ended with `ErrFileGone` or
`ErrFileTruncated` and left the seed of the matching flag. -/
theorem iterate_goes_on (g : Generation) (v v1 : continueState)
    (h : continueTailer.iterate g v = .ok (true, v1)) :
    (tailer.Err v1.s.tailer = some Error.ErrFileGone ∧
        v1.s.config = { v.s.config with
          Offset := toOffset v.s.config.TailFromOriginWhenGone }) ∨
      (tailer.Err v1.s.tailer = some Error.ErrFileTruncated ∧
        v1.s.config = { v.s.config with
          Offset := toOffset v.s.config.TailFromOriginWhenTruncated }) := by
  cases hopen : continueTailer.open g v.s with
  | error a => simp [continueTailer.iterate, hopen] at h
  | ok r =>
    obtain ⟨e, s1⟩ := r
    cases e with
    | some e => simp [continueTailer.iterate, hopen] at h
    | none =>
      obtain ⟨f0, t0, _, _, hs1⟩ := open_ok g v.s s1 hopen
      have hcfg : s1.config = v.s.config := by rw [hs1]
      have ht : s1.tailer = some t0 := by rw [hs1]
      cases hrun : tailer.Tail g.run t0 with
      | error a => simp [continueTailer.iterate, hopen, ht, hrun] at h
      | ok r =>
        obtain ⟨lines, t1⟩ := r
        rw [iterate_opened g v s1 t0 t1 lines hopen ht hrun] at h
        split_ifs at h with hg htr
        · simp only [Except.ok.injEq, Prod.mk.injEq, true_and] at h
          subst h
          exact Or.inl ⟨hg, by simp only [hcfg]⟩
        · simp only [Except.ok.injEq, Prod.mk.injEq, true_and] at h
          subst h
          exact Or.inr ⟨htr, by simp only [hcfg]⟩
        · simp at h

theorem eventLoop_terminal (rest : List Event) (v : loopState)
    (hrest : ∀ ev ∈ rest.head?,
      ev.typ = FileChangeEventType.Gone ∨ ev.typ = FileChangeEventType.Truncated) :
    ∃ v1, eventLoop rest v = .ok v1 ∧ v1.resultC = v.resultC := by
  cases rest with
  | nil => exact ⟨v, rfl, rfl⟩
  | cons ev post =>
    rcases hrest ev (by simp) with h | h
    · exact ⟨{ v with s := v.s.setErr (some Error.ErrFileGone) },
        by rw [eventLoop]; simp only [h], rfl⟩
    · exact ⟨{ v with s := v.s.setErr (some Error.ErrFileTruncated) },
        by rw [eventLoop]; simp only [h], rfl⟩

/-- C10. After a turn of the outer loop that ended with `ErrFileGone` or `ErrFileTruncated`,
let the file that is reopened hold `f2.content`, and let the new Tailer meet no failure until
the event channel is closed or a `Gone` or `Truncated` event arrives. The outer loop runs the
turn of that Tailer and sends its lines after those sent before. When the flag of the
condition that ended the previous turn is set, these lines start with all the complete lines
of that content, followed by the lines completed by the bytes appended later; when the flag
is not set, they are the lines of the bytes appended later alone, and no byte of that content
is in them. If the event channel is closed the loop returns, and `Tail` of the ContinueTailer
yields the lines sent before followed by these; otherwise the loop goes on, and whatever it
returns later starts with them. -/
theorem continueTailer_reopened_lines (g g2 : Generation) (v v1 : continueState) (f2 : File)
    (t2 : tailer) (inp : TailInput) (rest : List Event)
    (h1 : continueTailer.iterate g v = .ok (true, v1))
    (hf2 : OpenFileLoop g2.ctxErr g2.opening = .ok (.ok f2))
    (ht2 : newTailerFromFile f2 v1.s.config = .ok t2)
    (hrun : g2.run = { inp with events := inp.events ++ rest })
    (hinp : inp.appendsOnly t2)
    (hrest : ∀ ev ∈ rest.head?,
      ev.typ = FileChangeEventType.Gone ∨ ev.typ = FileChangeEventType.Truncated) :
    ∃ b v2 lines, continueTailer.iterate g2 v1 = .ok (b, v2) ∧
      v2.resultC = v1.resultC ++ lines ∧
      ((if tailer.Err v1.s.tailer = some Error.ErrFileGone
          then v.s.config.TailFromOriginWhenGone
          else v.s.config.TailFromOriginWhenTruncated) = true →
        lines = (segments f2.content).map DropCRLF ++
          (segments (fragment f2.content ++ inp.appended)).map DropCRLF) ∧
      ((if tailer.Err v1.s.tailer = some Error.ErrFileGone
          then v.s.config.TailFromOriginWhenGone
          else v.s.config.TailFromOriginWhenTruncated) = false →
        lines = (segments inp.appended).map DropCRLF) ∧
      (∀ more, continueTailer.loop (g :: g2 :: more) v =
        if b = true then continueTailer.loop more v2 else .ok v2) ∧
      (∀ more v3, continueTailer.loop (g :: g2 :: more) v = .ok v3 →
        ∃ extra, v3.resultC = v1.resultC ++ lines ++ extra) ∧
      (rest = [] → b = false ∧
        ∀ more, continueTailer.loop (g :: g2 :: more) v = .ok v2 ∧
          (v.resultC = [] →
            continueTailer.Tail (g :: g2 :: more) v.s = .ok (v1.resultC ++ lines, v2.s))) := by
  -- the seed left by the previous turn
  have hseed : v1.s.config.Offset =
      toOffset (if tailer.Err v1.s.tailer = some Error.ErrFileGone
        then v.s.config.TailFromOriginWhenGone
        else v.s.config.TailFromOriginWhenTruncated) := by
    rcases iterate_goes_on g v v1 h1 with ⟨he, hc⟩ | ⟨he, hc⟩
    · rw [if_pos he, hc]
    · have hne : tailer.Err v1.s.tailer ≠ some Error.ErrFileGone := by rw [he]; decide
      rw [if_neg hne, hc]
  -- the new Tailer
  obtain ⟨hu, hoff⟩ := newTailerFromFile_unread f2 v1.s.config t2 ht2
  obtain ⟨hpos, _, _, _, _, herr2, _⟩ := newTailerFromFile_ok f2 v1.s.config t2 ht2
  obtain ⟨w, hmore, _, htw⟩ := tailed_loop_append t2 inp hoff hinp
  obtain ⟨w1, hw1, hres⟩ := eventLoop_terminal rest w hrest
  have hloop : tailer.loop g2.run t2 = .ok w1 := by rw [hrun, hmore rest, hw1]
  have htail : tailer.Tail g2.run t2 = .ok (w1.resultC, w1.s) := by
    simp only [tailer.Tail, hloop]
  have hit := iterate_opened g2 v1 { v1.s with tailer := some t2 } t2 w1.s w1.resultC
    (open_of_opened g2 v1.s f2 t2 hf2 ht2) rfl htail
  have hnil : rest = [] → tailer.Err (some w1.s) = none := by
    intro hr
    subst hr
    simp only [eventLoop, Except.ok.injEq] at hw1
    subst hw1
    simp only [tailer.Err, htw.err, herr2]
  have hex : ∃ b v2, continueTailer.iterate g2 v1 = .ok (b, v2) ∧
      v2.resultC = v1.resultC ++ w1.resultC ∧ (rest = [] → b = false) := by
    rw [hit]
    split_ifs with hg htr
    · exact ⟨_, _, rfl, rfl, fun hr => by rw [hnil hr] at hg; cases hg⟩
    · exact ⟨_, _, rfl, rfl, fun hr => by rw [hnil hr] at htr; cases htr⟩
    · exact ⟨_, _, rfl, rfl, fun _ => rfl⟩
  obtain ⟨b, v2, hb, hv2, hbf⟩ := hex
  have hl : ∀ more, continueTailer.loop (g :: g2 :: more) v =
      if b = true then continueTailer.loop more v2 else .ok v2 := by
    intro more
    rw [loop_goes_on g v v1 h1]
    cases b with
    | true => simpa using loop_goes_on g2 v1 v2 hb more
    | false => simpa using loop_stops_at g2 v1 v2 hb more
  refine ⟨b, v2, w1.resultC, hb, hv2, ?_, ?_, hl, ?_, ?_⟩
  · intro hflag
    rw [hflag] at hseed
    have hp0 : t2.pos = 0 := by
      rw [hpos, hseed]
      simp [toOffset]
    rw [hres, htw.resultC, hu, hp0]
    simp only [Int.toNat_zero, List.drop_zero]
    rw [segments_append, List.map_append]
  · intro hflag
    rw [hflag] at hseed
    have hp0 : t2.pos = (f2.content.length : Int) := by
      rw [hpos, hseed]
      simp [toOffset]
    rw [hres, htw.resultC, hu, hp0]
    simp
  · intro more v3 h3
    rw [hl more] at h3
    cases b with
    | true =>
      simp only [if_true] at h3
      obtain ⟨extra, hx⟩ := loop_resultC more v2 v3 h3
      exact ⟨extra, by rw [hx, hv2]⟩
    | false =>
      simp only [Bool.false_eq_true, if_false, Except.ok.injEq] at h3
      subst h3
      exact ⟨[], by rw [hv2]; simp⟩
  · intro hr
    have hb0 := hbf hr
    refine ⟨hb0, fun more => ?_⟩
    have hlm := hl more
    rw [hb0] at hlm
    simp only [Bool.false_eq_true, if_false] at hlm
    refine ⟨hlm, fun hv => ?_⟩
    have hvs : v = { s := v.s, resultC := [] } := by
      cases v
      simp only at hv
      subst hv
      rfl
    unfold continueTailer.Tail
    rw [← hvs, hlm]
    simp only [hv2]

theorem continueTailer_reopened_lines_witness :
    (∃ s2, continueTailer.Tail [endedBy FileChangeEventType.Gone, reopened (bytes "nines\n")]
        (NewContinueTailer "log" [WithTailFromOriginWhenGone true]) =
          .ok ([bytes "nines"], s2)) ∧
    (∃ s2, continueTailer.Tail [endedBy FileChangeEventType.Gone, reopened (bytes "nines\n")]
        (NewContinueTailer "log" [WithTailFromOriginWhenGone false]) = .ok ([], s2)) ∧
    (∃ s2, continueTailer.Tail
        [endedBy FileChangeEventType.Truncated, reopened (bytes "second\n")]
        (NewContinueTailer "log" []) = .ok ([bytes "second"], s2)) ∧
    (∃ s2, continueTailer.Tail
        [endedBy FileChangeEventType.Truncated, reopened (bytes "second\n")]
        (NewContinueTailer "log" [WithTailFromOriginWhenTruncated false]) = .ok ([], s2)) := by
  refine ⟨?_, ?_, ?_, ?_⟩
  · obtain ⟨b, v2, lines, _, _, hon, _, _, _, hend⟩ := continueTailer_reopened_lines
      (endedBy FileChangeEventType.Gone) (reopened (bytes "nines\n"))
      (NewContinueTailer "log" [WithTailFromOriginWhenGone true]).start _ _ _ (appendRun []) []
      rfl rfl rfl rfl (appendRun_appendsOnly _ _) (by simp)
    refine ⟨v2.s, ?_⟩
    have h := ((hend rfl).2 []).2 rfl
    rw [hon rfl] at h
    exact h
  · obtain ⟨b, v2, lines, _, _, _, hoff, _, _, hend⟩ := continueTailer_reopened_lines
      (endedBy FileChangeEventType.Gone) (reopened (bytes "nines\n"))
      (NewContinueTailer "log" [WithTailFromOriginWhenGone false]).start _ _ _ (appendRun []) []
      rfl rfl rfl rfl (appendRun_appendsOnly _ _) (by simp)
    refine ⟨v2.s, ?_⟩
    have h := ((hend rfl).2 []).2 rfl
    rw [hoff rfl] at h
    exact h
  · obtain ⟨b, v2, lines, _, _, hon, _, _, _, hend⟩ := continueTailer_reopened_lines
      (endedBy FileChangeEventType.Truncated) (reopened (bytes "second\n"))
      (NewContinueTailer "log" []).start _ _ _ (appendRun []) []
      rfl rfl rfl rfl (appendRun_appendsOnly _ _) (by simp)
    refine ⟨v2.s, ?_⟩
    have h := ((hend rfl).2 []).2 rfl
    rw [hon rfl] at h
    exact h
  · obtain ⟨b, v2, lines, _, _, _, hoff, _, _, hend⟩ := continueTailer_reopened_lines
      (endedBy FileChangeEventType.Truncated) (reopened (bytes "second\n"))
      (NewContinueTailer "log" [WithTailFromOriginWhenTruncated false]).start _ _ _
      (appendRun []) []
      rfl rfl rfl rfl (appendRun_appendsOnly _ _) (by simp)
    refine ⟨v2.s, ?_⟩
    have h := ((hend rfl).2 []).2 rfl
    rw [hoff rfl] at h
    exact h

/-! ## The watch loop -/

/-- C13. For every baseline size and every tick at which `os.Stat` succeeds, the watcher sends
exactly one `Truncated` event if the size observed is below the baseline, exactly one
`Appended` event if it is above, and nothing if it is equal; in the three cases the baseline
becomes the size observed and the loop goes on with it, so that the next observation is
classified against this one, whatever the baseline was before. -/
theorem watcher_classifies_each_tick (v : watchState) (stat : FileInfo) :
    (stat.Size < v.s.size → (watcher.observe stat v).eventC =
      v.eventC ++ [{ typ := FileChangeEventType.Truncated, tim := stat.ModTime }]) ∧
    (stat.Size > v.s.size → (watcher.observe stat v).eventC =
      v.eventC ++ [{ typ := FileChangeEventType.Appended, tim := stat.ModTime }]) ∧
    (stat.Size = v.s.size → (watcher.observe stat v).eventC = v.eventC) ∧
    (watcher.observe stat v).s.size = stat.Size ∧
    (∀ now rest, watcher.watch (Tick.tick (.ok stat) now :: rest) v =
      watcher.watch rest (watcher.observe stat v)) ∧
    ∀ next : FileInfo,
      (next.Size < stat.Size → (watcher.observe next (watcher.observe stat v)).eventC =
        (watcher.observe stat v).eventC ++
          [{ typ := FileChangeEventType.Truncated, tim := next.ModTime }]) ∧
      (next.Size > stat.Size → (watcher.observe next (watcher.observe stat v)).eventC =
        (watcher.observe stat v).eventC ++
          [{ typ := FileChangeEventType.Appended, tim := next.ModTime }]) ∧
      (next.Size = stat.Size → (watcher.observe next (watcher.observe stat v)).eventC =
        (watcher.observe stat v).eventC) := by
  have key : ∀ (w : watchState) (st : FileInfo),
      (st.Size < w.s.size → (watcher.observe st w).eventC =
        w.eventC ++ [{ typ := FileChangeEventType.Truncated, tim := st.ModTime }]) ∧
      (st.Size > w.s.size → (watcher.observe st w).eventC =
        w.eventC ++ [{ typ := FileChangeEventType.Appended, tim := st.ModTime }]) ∧
      (st.Size = w.s.size → (watcher.observe st w).eventC = w.eventC) ∧
      (watcher.observe st w).s.size = st.Size := by
    intro w st
    refine ⟨fun h => ?_, fun h => ?_, fun h => ?_, ?_⟩
    · have h1 : w.s.size > st.Size := h
      simp [watcher.observe, h1]
    · have h1 : ¬ w.s.size > st.Size := by omega
      have h2 : w.s.size < st.Size := h
      simp [watcher.observe, h1, h2]
    · have h1 : ¬ w.s.size > st.Size := by omega
      have h2 : ¬ w.s.size < st.Size := by omega
      simp [watcher.observe, h1, h2]
    · unfold watcher.observe
      split_ifs <;> rfl
  obtain ⟨k1, k2, k3, k4⟩ := key v stat
  refine ⟨k1, k2, k3, k4, fun _ _ => rfl, fun next => ?_⟩
  obtain ⟨n1, n2, n3, _⟩ := key (watcher.observe stat v) next
  rw [k4] at n1 n2 n3
  exact ⟨n1, n2, n3⟩

theorem watcher_classifies_each_tick_witness :
    watched 10 [sized 10, sized 4, sized 7, sized 7] =
      [{ typ := FileChangeEventType.Truncated, tim := 0 },
       { typ := FileChangeEventType.Appended, tim := 0 }] ∧
    (watcher.observe { Size := 7, ModTime := 0 }
        (watcher.observe { Size := 4, ModTime := 0 }
          { s := { NewWatcher "log" 0 with size := 10 }, eventC := [] })).eventC =
      (watcher.observe { Size := 4, ModTime := 0 }
          { s := { NewWatcher "log" 0 with size := 10 }, eventC := [] }).eventC ++
        [{ typ := FileChangeEventType.Appended, tim := 0 }] :=
  ⟨by decide,
    ((watcher_classifies_each_tick { s := { NewWatcher "log" 0 with size := 10 }, eventC := [] }
      { Size := 4, ModTime := 0 }).2.2.2.2.2 { Size := 7, ModTime := 0 }).2.1 (by decide)⟩

theorem observe_eventC (stat : FileInfo) (v : watchState) :
    ∃ cl, (watcher.observe stat v).eventC = v.eventC ++ cl ∧
      ∀ ev ∈ cl, ev.typ ≠ FileChangeEventType.Gone := by
  unfold watcher.observe
  split_ifs
  · exact ⟨[_], rfl, by simp⟩
  · exact ⟨[_], rfl, by simp⟩
  · exact ⟨[], by simp, by simp⟩

/-- The events the watch loop adds: none but the last can be `Gone`. -/
theorem watch_eventC (ticks : List Tick) (v : watchState) :
    ∃ new, (watcher.watch ticks v).1.eventC = v.eventC ++ new ∧
      ∀ ev ∈ new.dropLast, ev.typ ≠ FileChangeEventType.Gone := by
  induction ticks generalizing v with
  | nil => exact ⟨[], by simp [watcher.watch], by simp⟩
  | cons t rest ih =>
    cases t with
    | done => exact ⟨[], by simp [watcher.watch], by simp⟩
    | tick stat now =>
      cases stat with
      | error e => exact ⟨[_], rfl, by simp⟩
      | ok info =>
        obtain ⟨cl, hcl, hng⟩ := observe_eventC info v
        obtain ⟨new, hnew, hlast⟩ := ih (watcher.observe info v)
        refine ⟨cl ++ new, ?_, ?_⟩
        · rw [watcher.watch, hnew, hcl, List.append_assoc]
        · intro ev hev
          by_cases hn : new = []
          · subst hn
            rw [List.append_nil] at hev
            exact hng ev (List.mem_of_mem_dropLast hev)
          · rw [List.dropLast_append_of_ne_nil _ hn] at hev
            rcases List.mem_append.mp hev with h | h
            · exact hng ev h
            · exact hlast ev h

/-- While `os.Stat` succeeds the loop goes on and sends no `Gone` event. -/
theorem watch_observed (pre : List Tick) (hpre : ∀ t ∈ pre, t.observed) (v : watchState) :
    ∃ w, (∀ rest, watcher.watch (pre ++ rest) v = watcher.watch rest w) ∧
      ∃ new, w.eventC = v.eventC ++ new ∧ ∀ ev ∈ new, ev.typ ≠ FileChangeEventType.Gone := by
  induction pre generalizing v with
  | nil => exact ⟨v, fun _ => rfl, [], by simp, by simp⟩
  | cons t pre ih =>
    have ht := hpre t (by simp)
    cases t with
    | done => exact absurd ht (by simp [Tick.observed])
    | tick stat now =>
      cases stat with
      | error e => exact absurd ht (by simp [Tick.observed])
      | ok info =>
        obtain ⟨cl, hcl, hng⟩ := observe_eventC info v
        obtain ⟨w, hw, new, hnew, hnn⟩ := ih (fun t h => hpre t (List.mem_cons_of_mem _ h))
          (watcher.observe info v)
        refine ⟨w, fun r => ?_, cl ++ new, ?_, ?_⟩
        · rw [List.cons_append, watcher.watch]
          exact hw r
        · rw [hnew, hcl, List.append_assoc]
        · intro ev hev
          rcases List.mem_append.mp hev with h | h
          · exact hng ev h
          · exact hnn ev h

theorem countP_le_one_of_dropLast {α : Type} (p : α → Bool) (l : List α)
    (h : ∀ a ∈ l.dropLast, p a = false) : l.countP p ≤ 1 := by
  induction l using List.reverseRecOn with
  | nil => simp
  | append_singleton l a _ =>
    rw [List.dropLast_concat] at h
    have h0 : l.countP p = 0 := by
      rw [List.countP_eq_zero]
      intro x hx
      simp [h x hx]
    rw [List.countP_append, h0]
    simp only [zero_add, List.countP_cons, List.countP_nil]
    split <;> omega

/-- C14. For every sequence of turns of the watch loop, the events sent hold at most one `Gone`
event, and a `Gone` event is the last one: no event follows it. It is sent at the first tick at
which `os.Stat` fails: when the ticks before succeeded, the events are those of these ticks,
none of them `Gone`, followed by the `Gone` event; the loop then returns, whatever turns would
follow. -/
theorem watcher_gone_once_and_last (s : watcher) (ticks : List Tick) :
    ((watcher.watch ticks { s := s, eventC := [] }).1.eventC.countP
      (fun ev => ev.typ = FileChangeEventType.Gone)) ≤ 1 ∧
    (∀ pre ev post, (watcher.watch ticks { s := s, eventC := [] }).1.eventC = pre ++ ev :: post →
      ev.typ = FileChangeEventType.Gone → post = []) ∧
    ∀ pre e now rest, ticks = pre ++ Tick.tick (.error e) now :: rest →
      (∀ t ∈ pre, t.observed) →
        (watcher.watch ticks { s := s, eventC := [] }).2 = true ∧
        (watcher.watch ticks { s := s, eventC := [] }).1.eventC =
          (watcher.watch pre { s := s, eventC := [] }).1.eventC ++
            [{ typ := FileChangeEventType.Gone, tim := now }] ∧
        ∀ ev ∈ (watcher.watch pre { s := s, eventC := [] }).1.eventC,
          ev.typ ≠ FileChangeEventType.Gone := by
  obtain ⟨new, hnew, hlast⟩ := watch_eventC ticks { s := s, eventC := [] }
  simp only [List.nil_append] at hnew
  refine ⟨?_, ?_, ?_⟩
  · rw [hnew]
    apply countP_le_one_of_dropLast
    intro a ha
    simpa using hlast a ha
  · intro pre ev post heq hg
    by_contra hpost
    rw [hnew] at heq
    have hmem : ev ∈ new.dropLast := by
      rw [heq, List.dropLast_append_of_ne_nil _ (List.cons_ne_nil _ _)]
      apply List.mem_append_right
      cases post with
      | nil => exact absurd rfl hpost
      | cons p ps => simp [List.dropLast]
    exact hlast ev hmem hg
  · intro pre e now rest hticks hpre
    obtain ⟨w, hw, nw, hnw, hnn⟩ := watch_observed pre hpre { s := s, eventC := [] }
    have hpre1 : watcher.watch pre { s := s, eventC := [] } = (w, false) := by
      have := hw []
      simpa [watcher.watch] using this
    rw [hticks, hw, hpre1]
    refine ⟨rfl, rfl, ?_⟩
    intro ev hev
    rw [hnw] at hev
    exact hnn ev (by simpa using hev)

theorem watcher_gone_once_and_last_witness :
    watched 8 [sized 8, sized 9, Tick.tick (.error (Error.other "no such file")) 5, sized 20,
        Tick.tick (.error (Error.other "no such file")) 6] =
      [{ typ := FileChangeEventType.Appended, tim := 0 },
       { typ := FileChangeEventType.Gone, tim := 5 }] := by
  have h := (watcher_gone_once_and_last { NewWatcher "log" 0 with size := 8 }
    [sized 8, sized 9, Tick.tick (.error (Error.other "no such file")) 5, sized 20,
      Tick.tick (.error (Error.other "no such file")) 6]).2.2
    [sized 8, sized 9] (Error.other "no such file") 5
    [sized 20, Tick.tick (.error (Error.other "no such file")) 6] rfl
    (by intro t ht; simp at ht; rcases ht with h | h <;> subst h <;> trivial)
  unfold watched
  rw [h.2.1]
  decide

/-! ## The lines sent hold no terminator -/

theorem readUntil_true_shape (U : List Byte) (h : (readUntil LF U).2 = true) :
    ∃ body, (readUntil LF U).1 = body ++ [LF] ∧ LF ∉ body := by
  induction U with
  | nil => simp [readUntil] at h
  | cons b bs ih =>
    by_cases hb : b = LF
    · subst hb
      exact ⟨[], by simp [readUntil], by simp⟩
    · simp only [readUntil, hb, if_false] at h ⊢
      obtain ⟨body, hbody, hno⟩ := ih h
      exact ⟨b :: body, by simp [hbody], by simp [hno, Ne.symm hb]⟩

/-- A line without line feed before its final line feed is sent without any line feed and
without carriage return at its end. -/
theorem DropCRLF_line (body : List Byte) (hbody : LF ∉ body) :
    LF ∉ DropCRLF (body ++ [LF]) ∧ (DropCRLF (body ++ [LF])).getLast? ≠ some CR := by
  rw [DropCRLF_concat_crlf body LF (Or.inr rfl)]
  obtain ⟨t, h1, _, h3⟩ := DropCRLF_removes_suffix body
  constructor
  · intro hmem
    apply hbody
    rw [h1]
    exact List.mem_append_left _ hmem
  · intro hcr
    exact (h3 CR hcr).1 rfl

theorem read_lines_clean (fuel : Nat) (ctx : Context) (v : loopState)
    (r : Option Error × loopState) (h : read fuel ctx v = .ok r) (hbuf : LF ∉ v.buf)
    (hres : ∀ l ∈ v.resultC, LF ∉ l ∧ l.getLast? ≠ some CR) :
    LF ∉ r.2.buf ∧ ∀ l ∈ r.2.resultC, LF ∉ l ∧ l.getLast? ≠ some CR := by
  induction fuel generalizing ctx v with
  | zero => simp [read] at h
  | succ fuel ih =>
    cases hd : ctx.Done with
    | true =>
      rw [read_done fuel ctx v hd] at h
      simp only [Except.ok.injEq] at h
      subst h
      exact ⟨hbuf, hres⟩
    | false =>
      cases hx : (readUntil LF v.s.file.unread).2 with
      | false =>
        rw [read_end fuel ctx v hd hx] at h
        split at h
        · simp only [Except.ok.injEq] at h
          subst h
          exact ⟨hbuf, hres⟩
        · simp only [Except.ok.injEq] at h
          subst h
          refine ⟨?_, hres⟩
          simp [hbuf, (readUntil_false _ hx).2]
      | true =>
        rw [read_line fuel ctx v hd hx] at h
        obtain ⟨body, hbody, hno⟩ := readUntil_true_shape _ hx
        apply ih _ _ h
        · simp
        · intro l hl
          rcases List.mem_append.mp hl with hl | hl
          · exact hres l hl
          · simp only [List.mem_singleton] at hl
            subst hl
            rw [hbody, ← List.append_assoc]
            exact DropCRLF_line (v.buf ++ body) (by simp [hbuf, hno])

theorem eventLoop_lines_clean (evs : List Event) (v v1 : loopState)
    (h : eventLoop evs v = .ok v1) (hbuf : LF ∉ v.buf)
    (hres : ∀ l ∈ v.resultC, LF ∉ l ∧ l.getLast? ≠ some CR) :
    ∀ l ∈ v1.resultC, LF ∉ l ∧ l.getLast? ≠ some CR := by
  induction evs generalizing v with
  | nil => simp only [eventLoop, Except.ok.injEq] at h; subst h; exact hres
  | cons ev evs ih =>
    rw [eventLoop] at h
    cases htyp : ev.typ with
    | Unknown => simp [htyp] at h
    | Gone => simp only [htyp, Except.ok.injEq] at h; subst h; exact hres
    | Truncated => simp only [htyp, Except.ok.injEq] at h; subst h; exact hres
    | Appended =>
      simp only [htyp] at h
      cases hr : readPass ev.pass v with
      | error a => simp [hr] at h
      | ok r =>
        obtain ⟨e, v2⟩ := r
        obtain ⟨h1, h2⟩ := read_lines_clean _ _ _ _ hr hbuf hres
        cases e with
        | some e =>
          simp only [hr, Except.ok.injEq] at h
          subst h
          exact h2
        | none =>
          simp only [hr] at h
          exact ih v2 h h1 h2

/-- C15. Every line a Tailer sends, in every run, whatever the file holds, however its bytes are
split across the read passes and however the run ends, holds no LF byte and does not end with
a CR byte; and the runs in which the file only grows do return. -/
theorem tailer_lines_have_no_terminator (s : tailer) (inp : TailInput) :
    (∀ lines s1, tailer.Tail inp s = .ok (lines, s1) →
      ∀ l ∈ lines, LF ∉ l ∧ l.getLast? ≠ some CR) ∧
    (s.file.offset ≤ s.file.content.length → inp.appendsOnly s →
      ∃ lines s1, tailer.Tail inp s = .ok (lines, s1)) := by
  constructor
  · intro lines s1 h
    unfold tailer.Tail at h
    cases hl : tailer.loop inp s with
    | error a => simp [hl] at h
    | ok v =>
      simp only [hl, Except.ok.injEq, Prod.mk.injEq] at h
      obtain ⟨h1, _⟩ := h
      subst h1
      unfold tailer.loop at hl
      cases hr : readPass inp.first { s := s, buf := [], resultC := [] } with
      | error a => simp [hr] at hl
      | ok r =>
        obtain ⟨e, v0⟩ := r
        obtain ⟨hb0, hc0⟩ := read_lines_clean _ _ _ _ hr (by simp) (by simp)
        cases e with
        | some e =>
          simp only [hr, Except.ok.injEq] at hl
          subst hl
          exact hc0
        | none =>
          simp only [hr] at hl
          cases hw : inp.watchErr with
          | some e =>
            simp only [hw, Except.ok.injEq] at hl
            subst hl
            exact hc0
          | none =>
            simp only [hw] at hl
            exact eventLoop_lines_clean _ _ _ hl hb0 hc0
  · intro hoff hinp
    obtain ⟨v, _, hv, _⟩ := tailed_loop_append s inp hoff hinp
    exact ⟨v.resultC, v.s, by simp [tailer.Tail, hv]⟩

theorem tailer_lines_have_no_terminator_witness :
    ∃ lines s1, tailer.Tail (appendRun [bytes "a\r\r\n", bytes "b\rc\r", bytes "\nd\r"])
        freshTailer = .ok (lines, s1) ∧
      lines = [bytes "a", bytes "b\rc"] ∧ ∀ l ∈ lines, LF ∉ l ∧ l.getLast? ≠ some CR := by
  obtain ⟨hall, hex⟩ := tailer_lines_have_no_terminator freshTailer
    (appendRun [bytes "a\r\r\n", bytes "b\rc\r", bytes "\nd\r"])
  obtain ⟨lines, s1, h⟩ := hex (by decide) (appendRun_appendsOnly _ _)
  refine ⟨lines, s1, h, ?_, hall lines s1 h⟩
  obtain ⟨v, _, hv, ht⟩ := tailed_loop_append freshTailer
    (appendRun [bytes "a\r\r\n", bytes "b\rc\r", bytes "\nd\r"]) (by decide)
    (appendRun_appendsOnly _ _)
  simp only [tailer.Tail, hv, Except.ok.injEq, Prod.mk.injEq] at h
  rw [← h.1, ht.resultC]
  decide

/-! ## The end of the outer loop and the accessors -/

theorem OpenFileLoop_error (c : Error) (steps : List OpenStep) (e : Error)
    (h : OpenFileLoop c steps = .ok (.error e)) : e = c := by
  induction steps with
  | nil => simp [OpenFileLoop] at h
  | cons st rest ih =>
    cases st with
    | done =>
      simp only [OpenFileLoop, Except.ok.injEq, Except.error.injEq] at h
      exact h.symm
    | tick r =>
      cases r with
      | ok f => simp [OpenFileLoop] at h
      | error e1 =>
        simp only [OpenFileLoop] at h
        exact ih h

theorem OpenFileLoop_ok_mem (c : Error) (steps : List OpenStep) (f : File)
    (h : OpenFileLoop c steps = .ok (.ok f)) : OpenStep.tick (.ok f) ∈ steps := by
  induction steps with
  | nil => simp [OpenFileLoop] at h
  | cons st rest ih =>
    cases st with
    | done => simp [OpenFileLoop] at h
    | tick r =>
      cases r with
      | ok f1 =>
        simp only [OpenFileLoop, Except.ok.injEq] at h
        subst h
        exact List.mem_cons_self _ _
      | error e1 =>
        simp only [OpenFileLoop] at h
        exact List.mem_cons_of_mem _ (ih h)

theorem newTailerFromFile_error (f : File) (config : Config) (e : Error)
    (h : newTailerFromFile f config = .error e) : f.statErr = some e ∨ f.seekErr = some e := by
  have hb := startOffset_bounds config f.content.length
  unfold newTailerFromFile File.Stat at h
  cases hst : f.statErr with
  | some e1 =>
    simp only [hst, Except.error.injEq] at h
    exact Or.inl (by rw [h])
  | none =>
    cases hsk : f.seekErr with
    | some e1 =>
      simp only [hst, File.Seek, hsk, Except.error.injEq] at h
      exact Or.inr (by rw [h])
    | none =>
      simp [hst, File.Seek, hsk, not_lt.mpr hb.1] at h

/-- Where the error of `open` comes from. -/
theorem open_error (g : Generation) (s s1 : continueTailer) (e : Error)
    (h : continueTailer.open g s = .ok (some e, s1)) :
    s1 = s ∧ (e = g.ctxErr ∨
      ∃ f, OpenStep.tick (.ok f) ∈ g.opening ∧ (f.statErr = some e ∨ f.seekErr = some e)) := by
  unfold continueTailer.open at h
  cases ho : OpenFileLoop g.ctxErr g.opening with
  | error a => simp [ho] at h
  | ok r =>
    cases r with
    | error e1 =>
      simp only [ho, Except.ok.injEq, Prod.mk.injEq, Option.some.injEq] at h
      refine ⟨h.2.symm, Or.inl ?_⟩
      rw [← h.1]
      exact OpenFileLoop_error _ _ _ ho
    | ok f =>
      simp only [ho] at h
      cases hn : newTailerFromFile f s.config with
      | error e1 =>
        simp only [hn, Except.ok.injEq, Prod.mk.injEq, Option.some.injEq] at h
        refine ⟨h.2.symm, Or.inr ⟨f, OpenFileLoop_ok_mem _ _ _ ho, ?_⟩⟩
        rw [← h.1]
        exact newTailerFromFile_error f s.config e1 hn
      | ok t => simp [hn] at h

theorem iterate_open_failed (g : Generation) (v : continueState) (s1 : continueTailer)
    (e : Error) (h : continueTailer.open g v.s = .ok (some e, s1)) :
    continueTailer.iterate g v = .ok (false, { v with s := s1.setErr (some e) }) := by
  unfold continueTailer.iterate
  simp only [h]

/-- A turn of the outer loop that says to stop: `open` failed, or the Tailer returned with a
condition that is neither `ErrFileGone` nor `ErrFileTruncated`. -/
theorem iterate_stops (g : Generation) (v v1 : continueState)
    (h : continueTailer.iterate g v = .ok (false, v1)) :
    (∃ e s1, continueTailer.open g v.s = .ok (some e, s1) ∧ v1.s = s1.setErr (some e)) ∨
    (∃ s1 t lines t1, continueTailer.open g v.s = .ok (none, s1) ∧ s1.tailer = some t ∧
      tailer.Tail g.run t = .ok (lines, t1) ∧
      tailer.Err (some t1) ≠ some Error.ErrFileGone ∧
      tailer.Err (some t1) ≠ some Error.ErrFileTruncated ∧
      v1.s = { s1 with tailer := some t1, err := tailer.Err (some t1) }) := by
  cases hopen : continueTailer.open g v.s with
  | error a => simp [continueTailer.iterate, hopen] at h
  | ok r =>
    obtain ⟨e, s1⟩ := r
    cases e with
    | some e =>
      rw [iterate_open_failed g v s1 e hopen] at h
      simp only [Except.ok.injEq, Prod.mk.injEq, true_and] at h
      exact Or.inl ⟨e, s1, rfl, by rw [← h]⟩
    | none =>
      obtain ⟨f0, t0, _, _, hs1⟩ := open_ok g v.s s1 hopen
      have ht : s1.tailer = some t0 := by rw [hs1]
      cases hrun : tailer.Tail g.run t0 with
      | error a => simp [continueTailer.iterate, hopen, ht, hrun] at h
      | ok r =>
        obtain ⟨lines, t1⟩ := r
        rw [iterate_opened g v s1 t0 t1 lines hopen ht hrun] at h
        split_ifs at h with hg htr
        · simp at h
        · simp at h
        · simp only [Except.ok.injEq, Prod.mk.injEq, true_and] at h
          exact Or.inr ⟨s1, t0, lines, t1, rfl, ht, hrun, hg, htr, by rw [← h]⟩

theorem continueTailer_Err_of_err (s : continueTailer) (e : Error) (h : s.err = some e) :
    continueTailer.Err s = .ok (some e) := by
  simp [continueTailer.Err, h]

theorem continueTailer_Err_of_tailer (s : continueTailer) (t : tailer)
    (ht : s.tailer = some t) (h : s.err = tailer.Err (some t)) :
    continueTailer.Err s = .ok (tailer.Err (some t)) := by
  unfold continueTailer.Err
  split_ifs with hn
  · rw [h]
  · simp only [ht]

/-- A stopped outer loop reports a condition, and not one of the two that make it go on. -/
theorem loop_stopped_err (gs : List Generation) (v v1 : continueState)
    (henv : ∀ g ∈ gs, g.foreignErrors) (h : continueTailer.loop gs v = .ok v1) :
    ∃ e, continueTailer.Err v1.s = .ok e ∧ e ≠ some Error.ErrFileGone ∧
      e ≠ some Error.ErrFileTruncated := by
  induction gs generalizing v with
  | nil => simp [continueTailer.loop] at h
  | cons g gs ih =>
    rw [continueTailer.loop] at h
    cases hit : continueTailer.iterate g v with
    | error a => simp [hit] at h
    | ok r =>
      obtain ⟨b, v2⟩ := r
      cases b with
      | true =>
        simp only [hit] at h
        exact ih v2 (fun g1 hg1 => henv g1 (List.mem_cons_of_mem _ hg1)) h
      | false =>
        simp only [hit, Except.ok.injEq] at h
        subst h
        obtain ⟨hctx, hfile⟩ := henv g (List.mem_cons_self _ _)
        rcases iterate_stops g v v2 hit with ⟨e, s1, hopen, hv2⟩ | ⟨s1, t, lines, t1, _, _, _, hg,
          htr, hv2⟩
        · refine ⟨some e, continueTailer_Err_of_err _ e (by rw [hv2]; rfl), ?_⟩
          have hf : e.foreign := by
            rcases (open_error g v.s s1 e hopen).2 with he | ⟨f, hmem, he | he⟩
            · rw [he]; exact hctx
            · exact (hfile f hmem).1 e he
            · exact (hfile f hmem).2 e he
          exact ⟨fun h => hf.1 (Option.some.inj h), fun h => hf.2 (Option.some.inj h)⟩
        · exact ⟨tailer.Err (some t1),
            continueTailer_Err_of_tailer _ t1 (by rw [hv2]) (by rw [hv2]), hg, htr⟩

/-- C11. When `open` fails, or when the inner Tailer returns with a condition that is neither
`ErrFileGone` nor `ErrFileTruncated` (nil included), the outer loop returns in that turn: the
generations that would follow are not used, so no further Tailer is built, and `Err()` of the
ContinueTailer is exactly that condition. And whenever the outer loop has returned, `Err()` is
neither `ErrFileGone` nor `ErrFileTruncated`, the context and the operating system reporting
errors of their own. -/
theorem continueTailer_stops_with_condition (g : Generation) (gs : List Generation)
    (v : continueState) :
    (∀ e s1, continueTailer.open g v.s = .ok (some e, s1) →
      ∃ v1, continueTailer.iterate g v = .ok (false, v1) ∧
        (∀ rest, continueTailer.loop (g :: rest) v = .ok v1) ∧
        v1.s.tailer = v.s.tailer ∧ v1.resultC = v.resultC ∧
        continueTailer.Err v1.s = .ok (some e)) ∧
    (∀ s1 t lines t1, continueTailer.open g v.s = .ok (none, s1) → s1.tailer = some t →
      tailer.Tail g.run t = .ok (lines, t1) →
      tailer.Err (some t1) ≠ some Error.ErrFileGone →
      tailer.Err (some t1) ≠ some Error.ErrFileTruncated →
      ∃ v1, continueTailer.iterate g v = .ok (false, v1) ∧
        (∀ rest, continueTailer.loop (g :: rest) v = .ok v1) ∧
        v1.s.tailer = some t1 ∧ v1.resultC = v.resultC ++ lines ∧
        continueTailer.Err v1.s = .ok (tailer.Err (some t1))) ∧
    (∀ v1, (∀ g1 ∈ gs, g1.foreignErrors) → continueTailer.loop gs v = .ok v1 →
      ∃ e, continueTailer.Err v1.s = .ok e ∧ e ≠ some Error.ErrFileGone ∧
        e ≠ some Error.ErrFileTruncated) := by
  refine ⟨?_, ?_, fun v1 henv h => loop_stopped_err gs v v1 henv h⟩
  · intro e s1 hopen
    have hit := iterate_open_failed g v s1 e hopen
    have hs1 := (open_error g v.s s1 e hopen).1
    refine ⟨_, hit, fun rest => ?_, ?_, rfl, ?_⟩
    · rw [continueTailer.loop]
      simp only [hit]
    · simp only [continueTailer.setErr, hs1]
    · exact continueTailer_Err_of_err _ e rfl
  · intro s1 t lines t1 hopen ht hrun hg htr
    have hit := iterate_opened g v s1 t t1 lines hopen ht hrun
    rw [if_neg hg, if_neg htr] at hit
    refine ⟨_, hit, fun rest => ?_, rfl, rfl, ?_⟩
    · rw [continueTailer.loop]
      simp only [hit]
    · exact continueTailer_Err_of_tailer _ t1 rfl rfl

theorem continueTailer_stops_with_condition_witness :
    (∃ v1, continueTailer.loop [cancelledWhileOpening, reopened (bytes "x\n")]
        (NewContinueTailer "log" []).start = .ok v1 ∧
      v1.s.tailer = none ∧ continueTailer.Err v1.s = .ok (some Error.Canceled)) ∧
    (∃ v1, continueTailer.loop [readFails, reopened (bytes "x\n")]
        (NewContinueTailer "log" []).start = .ok v1 ∧
      continueTailer.Err v1.s = .ok (some (Error.other "input/output error"))) ∧
    (∃ v1 e, continueTailer.loop [endedBy FileChangeEventType.Gone, readFails]
        (NewContinueTailer "log" []).start = .ok v1 ∧
      continueTailer.Err v1.s = .ok e ∧ e ≠ some Error.ErrFileGone ∧
      e ≠ some Error.ErrFileTruncated) := by
  refine ⟨?_, ?_, ?_⟩
  · obtain ⟨v1, _, h2, h3, _, h5⟩ := (continueTailer_stops_with_condition cancelledWhileOpening
      [] (NewContinueTailer "log" []).start).1 Error.Canceled _ rfl
    exact ⟨v1, h2 _, h3, h5⟩
  · obtain ⟨v1, _, h2, _, _, h5⟩ := (continueTailer_stops_with_condition readFails
      [] (NewContinueTailer "log" []).start).2.1 _ _ _ _ rfl rfl rfl (by decide) (by decide)
    exact ⟨v1, h2 _, h5⟩
  · have henv : ∀ g1 ∈ [endedBy FileChangeEventType.Gone, readFails], g1.foreignErrors := by
      intro g1 hg1
      simp only [List.mem_cons, List.mem_singleton, List.not_mem_nil, or_false] at hg1
      rcases hg1 with h | h <;> subst h
      · refine ⟨by decide, fun f hf => ?_⟩
        simp only [endedBy, List.mem_singleton, OpenStep.tick.injEq, Except.ok.injEq] at hf
        subst hf
        exact ⟨fun e he => by simp [fileOf] at he, fun e he => by simp [fileOf] at he⟩
      · refine ⟨by decide, fun f hf => ?_⟩
        simp only [readFails, List.mem_singleton, OpenStep.tick.injEq, Except.ok.injEq] at hf
        subst hf
        exact ⟨fun e he => by simp [fileOf] at he, fun e he => by simp [fileOf] at he⟩
    obtain ⟨e, h1, h2, h3⟩ := (continueTailer_stops_with_condition readFails
      [endedBy FileChangeEventType.Gone, readFails] (NewContinueTailer "log" []).start).2.2
      _ henv rfl
    exact ⟨_, e, rfl, h1, h2, h3⟩

/-- C12, at the inputs where it fails. `Pos()` of a ContinueTailer calls `s.tailer.Pos()` on the
interface value, which is nil until the first `open` succeeds: before `Tail` is called, and
after the outer loop has returned because the context was cancelled during the first wait for
the file, `Pos()` panics instead of returning a value. The guard of `(*tailer).Pos` for a nil
receiver, which returns 0, is not reached. -/
theorem continueTailer_Pos_panics_without_tailer :
    continueTailer.Pos (NewContinueTailer "log" []) =
      .error (Abort.panic "invalid memory address or nil pointer dereference") ∧
    (∃ v, continueTailer.loop [cancelledWhileOpening] (NewContinueTailer "log" []).start =
        .ok v ∧
      v.s.tailer = none ∧ continueTailer.Err v.s = .ok (some Error.Canceled) ∧
      continueTailer.Pos v.s =
        .error (Abort.panic "invalid memory address or nil pointer dereference")) ∧
    tailer.Pos none = 0 :=
  ⟨rfl, ⟨_, rfl, rfl, rfl, rfl⟩, rfl⟩

/-- Once a Tailer has been built, `Pos()` of the ContinueTailer is the offset of that Tailer. -/
theorem continueTailer_Pos_of_tailer (s : continueTailer) (t : tailer) (h : s.tailer = some t) :
    continueTailer.Pos s = .ok t.pos := by
  simp [continueTailer.Pos, h, tailer.Pos]

end Gotailf
